import Mathlib

/-!
Verification of the arcgis-utils resource-resolution and conversion pipeline.

This file gives a shallow embedding, in Lean 4, of the parts of the program
that the specification's claims speak about:

* the dynamic Go values produced by decoding JSON into `interface` values
  (`GoVal`), together with the type assertions the code performs on them;
* the geometry translator `GeometryToWKT` of pkg/utils/geometry.go (an
  identical private copy lives in pkg/convert/convert.go as `geometryToWKT`);
* the GeoJSON encoder `ConvertToGeoJSON` and CSV encoder
  `ConvertFeaturesToCSV` of pkg/convert/convert.go;
* the symbol resolution passes of `processSelectedLayer` (main.go);
* `getFeatureName` of pkg/export/kml.go (also used by the GPX exporter);
* service-layer discovery (`fetchServiceLayers`) and the feature-fetch
  classification (`fetchFeatures` and the outcome mapping in `main`);
* the URL normalizer `normalizeArcGISURL` together with a model of the
  parts of Go's net/url package that it exercises.

Modelling conventions: Go `float64` values are modelled as exact rationals
(`Rat`); the code under verification performs no floating-point arithmetic
on them, only presence tests, equality comparisons and formatting, so the
rational model is faithful for those operations.  Go maps are modelled as
association lists whose update operation overwrites the first matching key.
-/

set_option maxHeartbeats 1600000

namespace ArcgisUtils

/-- A rendering symbol (the `Symbol` struct).  Go `int` fields are
modelled as unbounded integers: the program never performs arithmetic
that could overflow them. -/
structure Symbol where
  stype : String
  url : String
  imageData : String
  contentType : String
  width : Int
  height : Int
  xoffset : Int
  yoffset : Int
  angle : Rat
deriving DecidableEq

/-- A dynamic Go value held in an `interface` variable, as produced by
decoding JSON or by the program itself.  `vnum` is a `float64` (modelled as
an exact rational), `vjsonNumber` is the distinct dynamic type
`json.Number`, and `vsymbolRef` is a pointer to a `Symbol` record as
stored into an attribute map by the symbol resolver. -/
inductive GoVal where
  | vnull
  | vbool (b : Bool)
  | vnum (q : Rat)
  | vstr (s : String)
  | vjsonNumber (s : String)
  | vsymbolRef (s : Symbol)
  | varr (items : List GoVal)
  | vobj (fields : List (String × GoVal))

/-- Go map lookup `m[k]` on an attribute map (first matching key). -/
def lookupField : List (String × GoVal) → String → Option GoVal
  | [], _ => none
  | (k, v) :: rest, key => if k = key then some v else lookupField rest key

/-- Go map assignment `m[k] = v`: overwrite the existing entry, else append. -/
def setField : List (String × GoVal) → String → GoVal → List (String × GoVal)
  | [], k, v => [(k, v)]
  | (k', v') :: rest, k, v =>
    if k' = k then (k, v) :: rest else (k', v') :: setField rest k v

/-- The Go type assertion `x.(float64)`. -/
def GoVal.asNum : GoVal → Option Rat
  | .vnum q => some q
  | _ => none

/-- The Go type assertion `x.([]interface)`. -/
def GoVal.asArr : GoVal → Option (List GoVal)
  | .varr items => some items
  | _ => none

/-- The Go type assertion `x.(map[string]interface)`. -/
def GoVal.asObj : GoVal → Option (List (String × GoVal))
  | .vobj fields => some fields
  | _ => none

/-- The Go type assertion `x.(string)`. -/
def GoVal.asStr : GoVal → Option String
  | .vstr s => some s
  | _ => none

/-- The Go type assertion `x.(json.Number)`. -/
def GoVal.asJsonNumber : GoVal → Option String
  | .vjsonNumber s => some s
  | _ => none

/-- A pure JSON document. -/
inductive Json where
  | jnull
  | jbool (b : Bool)
  | jnum (q : Rat)
  | jstr (s : String)
  | jarr (items : List Json)
  | jobj (fields : List (String × Json))

/-- Decoding a JSON value into a Go `interface` variable with
`encoding/json`'s default decoder (no `UseNumber`): JSON numbers decode to
`float64`, never to `json.Number`. -/
def decodeValue : Json → GoVal
  | .jnull => .vnull
  | .jbool b => .vbool b
  | .jnum q => .vnum q
  | .jstr s => .vstr s
  | .jarr xs => .varr (xs.attach.map (fun j => decodeValue j.1))
  | .jobj fs => .vobj (fs.attach.map (fun kv => (kv.1.1, decodeValue kv.1.2)))
decreasing_by
  · have h := List.sizeOf_lt_of_mem j.2
    simp only [Json.jarr.sizeOf_spec]
    omega
  · have h1 : sizeOf kv.1.2 < sizeOf kv.1 := by
      obtain ⟨a, b⟩ := kv.1
      simp only [Prod.mk.sizeOf_spec]
      omega
    have h2 := List.sizeOf_lt_of_mem kv.2
    simp only [Json.jobj.sizeOf_spec]
    omega

/-- `%.10f` formatting of a coordinate (fixed point, ten decimal digits),
as used by `fmt.Sprintf("%.10f %.10f", x, y)`.  The binary-double rounding
of Go's formatter is modelled as exact rational rounding to the nearest
ten-decimal fixed-point value, computed on the numerator and
denominator. -/
def fmt10 (q : Rat) : String :=
  let scaled : Int := Int.fdiv (2 * q.num * 10 ^ 10 + (q.den : Int)) (2 * (q.den : Int))
  let neg := scaled < 0
  let m := scaled.natAbs
  let ip := m / 10 ^ (10 : Nat)
  let fp := m % 10 ^ (10 : Nat)
  let fpStr := toString fp
  let pad := String.mk (List.replicate (10 - fpStr.length) '0')
  (if neg then "-" else "") ++ toString ip ++ "." ++ pad ++ fpStr

/-- Extraction of one vertex from a coordinate array: the element must be a
`[]interface` of length at least `MinPointCoords = 2` whose entries at
`IndexX = 0` and `IndexY = 1` are both `float64`. -/
def pointCoords : GoVal → Option (Rat × Rat)
  | .varr (x :: y :: _) =>
    match x.asNum, y.asNum with
    | some a, some b => some (a, b)
    | _, _ => none
  | _ => none

/-- The valid vertices of a path or ring, formatted for WKT
(`"%.10f %.10f"`); invalid entries are skipped. -/
def wktPoints (ps : List GoVal) : List String :=
  ps.filterMap (fun p =>
    (pointCoords p).map (fun xy => fmt10 xy.1 ++ " " ++ fmt10 xy.2))

/-- Ring closing: `if points[0] != points[len(points)-1])` append a
duplicate of the first point.  (The Go code guards with `len(points) > 0`,
which the empty case covers.) -/
def closeRing {α : Type} [DecidableEq α] (pts : List α) : List α :=
  match pts with
  | [] => []
  | p :: _ => if pts.getLast? = some p then pts else pts ++ [p]

/-- The per-ring point lists assembled by the polygon branch of
`GeometryToWKT`: rings that are not arrays or that yield zero valid points
are dropped, surviving rings are closed. -/
def wktPolyRings (rs : List GoVal) : List (List String) :=
  rs.filterMap (fun r =>
    match r.asArr with
    | none => none
    | some pts =>
      let s := wktPoints pts
      if s.isEmpty then none else some (closeRing s))

/-- `GeometryToWKT` (pkg/utils/geometry.go; identical to the private
`geometryToWKT` of pkg/convert/convert.go).  `none` models a nil
geometry. -/
def geometryToWKT : Option GoVal → String
  | none => ""
  | some g =>
    match g.asObj with
    | none => ""
    | some fields =>
      match lookupField fields "x" with
      | some xv =>
        match lookupField fields "y" with
        | some yv =>
          match xv.asNum, yv.asNum with
          | some x, some y => "POINT (" ++ fmt10 x ++ " " ++ fmt10 y ++ ")"
          | _, _ => ""
        | none => ""
      | none =>
        match lookupField fields "paths" with
        | some pv =>
          match pv.asArr with
          | some (fp :: _) =>
            match fp.asArr with
            | some pts =>
              let strs := wktPoints pts
              if strs.isEmpty then ""
              else "LINESTRING (" ++ String.intercalate ", " strs ++ ")"
            | none => ""
          | _ => ""
        | none =>
          match lookupField fields "rings" with
          | some rv =>
            match rv.asArr with
            | some (r0 :: rest) =>
              let ringStrs := wktPolyRings (r0 :: rest)
              if ringStrs.isEmpty then ""
              else
                "POLYGON (" ++
                  String.intercalate ", "
                    (ringStrs.map
                      (fun r => "(" ++ String.intercalate ", " r ++ ")")) ++ ")"
            | _ => ""
          | none => ""

/-- A canonical geometry as built by `ConvertToGeoJSON`. -/
inductive GeoGeom where
  | point (x y : Rat)
  | line (coords : List (Rat × Rat))
  | polygon (rings : List (List (Rat × Rat)))

/-- The valid vertices of a path or ring as coordinate pairs. -/
def coordsOf (ps : List GoVal) : List (Rat × Rat) :=
  ps.filterMap pointCoords

/-- The polygon rings assembled by `ConvertToGeoJSON`: every ring value
that is an array contributes a ring (closed when non-empty); note that a
ring with zero valid vertices is still appended, as an empty ring. -/
def geoRings (rs : List GoVal) : List (List (Rat × Rat)) :=
  rs.filterMap (fun r => (r.asArr).map (fun pts => closeRing (coordsOf pts)))

/-- The geometry translation performed inline by `ConvertToGeoJSON`
(pkg/convert/convert.go): `none` is an absent output geometry (the feature
is then dropped from the collection). -/
def geoJSONGeometry : Option GoVal → Option GeoGeom
  | none => none
  | some g =>
    match g.asObj with
    | none => none
    | some fields =>
      match lookupField fields "x" with
      | some xv =>
        match lookupField fields "y" with
        | some yv =>
          match xv.asNum, yv.asNum with
          | some x, some y => some (.point x y)
          | _, _ => none
        | none => none
      | none =>
        match lookupField fields "paths" with
        | some pv =>
          match pv.asArr with
          | some (fp :: _) =>
            match fp.asArr with
            | some pts => some (.line (coordsOf pts))
            | none => none
          | _ => none
        | none =>
          match lookupField fields "rings" with
          | some rv =>
            match rv.asArr with
            | some (r0 :: rest) => some (.polygon (geoRings (r0 :: rest)))
            | _ => none
          | none => none

/-- A record fetched from a layer: loosely-typed attributes plus an
optional source geometry (`none` models a nil `interface` geometry). -/
structure Feature where
  attributes : List (String × GoVal)
  geometry : Option GoVal

/-- Go's `int(f)` conversion from `float64`: truncation toward zero. -/
def ratTrunc (q : Rat) : Int := q.num.tdiv q.den

/-- Helper `getString` of pkg/convert/convert.go. -/
def getString (m : List (String × GoVal)) (key : String) : String :=
  match lookupField m key with
  | some (.vstr s) => s
  | _ => ""

/-- Helper `getInt` of pkg/convert/convert.go. -/
def getInt (m : List (String × GoVal)) (key : String) : Int :=
  match lookupField m key with
  | some (.vnum q) => ratTrunc q
  | _ => 0

/-- Helper `getFloat` of pkg/convert/convert.go. -/
def getFloat (m : List (String × GoVal)) (key : String) : Rat :=
  match lookupField m key with
  | some (.vnum q) => q
  | _ => 0

/-- The `Symbol` side-field extraction of `ConvertToGeoJSON`: present only
when the `symbol` attribute exists and is a `map[string]interface` (a
symbol attached by the resolver is a `Symbol` pointer, which fails this
type assertion and is then carried only inside the properties). -/
def symbolOfAttrs (attrs : List (String × GoVal)) : Option Symbol :=
  match lookupField attrs "symbol" with
  | some v =>
    match v.asObj with
    | some m =>
      some { stype := getString m "type", url := getString m "url",
             imageData := getString m "imageData",
             contentType := getString m "contentType",
             width := getInt m "width", height := getInt m "height",
             xoffset := getInt m "xoffset", yoffset := getInt m "yoffset",
             angle := getFloat m "angle" }
    | none => none
  | none => none

/-- A GeoJSON output feature. -/
structure GeoJSONFeature where
  ftype : String
  properties : List (String × GoVal)
  geometry : Option GeoGeom
  symbol : Option Symbol

/-- A GeoJSON FeatureCollection with its CRS declaration. -/
structure GeoJSON where
  gtype : String
  crsType : String
  crsName : String
  features : List GeoJSONFeature

/-- `ConvertToGeoJSON` (pkg/convert/convert.go): the fixed collection
wrapper; a feature is appended only when its translated geometry is
non-nil. -/
def convertToGeoJSON (features : List Feature) : GeoJSON :=
  { gtype := "FeatureCollection"
    crsType := "name"
    crsName := "urn:ogc:def:crs:OGC:1.3:CRS84"
    features := features.filterMap (fun f =>
      match geoJSONGeometry f.geometry with
      | some geom =>
        some { ftype := "Feature", properties := f.attributes,
               geometry := some geom, symbol := symbolOfAttrs f.attributes }
      | none => none) }

/-- `fmt.Sprintf("%v", x)` on a dynamic value, structured over an explicit
recursion bound so that it evaluates by kernel reduction.  Scalar
renderings ignore the bound; any bound at least the value's size (as in
`goFmtV`) gives the full composite rendering.  String, boolean and nil
renderings are exact; the decimal rendering that Go uses for `float64`
values is modelled as a canonical rendering of the exact rational, and the
composite renderings keep Go's bracketed shapes (Go prints map entries in
sorted key order). -/
def goFmtVFuel : Nat → GoVal → String
  | 0, _ => ""
  | fuel + 1, v =>
    match v with
    | .vnull => "<nil>"
    | .vbool b => if b then "true" else "false"
    | .vnum q => if q.den = 1 then toString q.num else toString q.num ++ "/" ++ toString q.den
    | .vstr s => s
    | .vjsonNumber s => s
    | .vsymbolRef sy => "&\x7b" ++ sy.stype ++ "\x7d"
    | .varr items => "[" ++ String.intercalate " " (items.map (goFmtVFuel fuel)) ++ "]"
    | .vobj fields =>
      "map[" ++
        String.intercalate " "
          ((fields.map (fun kv => kv.1 ++ ":" ++ goFmtVFuel fuel kv.2)).insertionSort (· ≤ ·)) ++
        "]"

/-- Nesting depth of a dynamic value, used as the recursion bound of the
`%v` renderer. -/
def GoVal.depth : GoVal → Nat
  | .varr items => (items.attach.map (fun v => GoVal.depth v.1)).foldl max 0 + 1
  | .vobj fields => (fields.attach.map (fun kv => GoVal.depth kv.1.2)).foldl max 0 + 1
  | _ => 0
decreasing_by
  · have h := List.sizeOf_lt_of_mem v.2
    simp only [GoVal.varr.sizeOf_spec]
    omega
  · have h1 : sizeOf kv.1.2 < sizeOf kv.1 := by
      obtain ⟨a, b⟩ := kv.1
      simp only [Prod.mk.sizeOf_spec]
      omega
    have h2 := List.sizeOf_lt_of_mem kv.2
    simp only [GoVal.vobj.sizeOf_spec]
    omega

/-- `fmt.Sprintf("%v", x)` on a dynamic value: one more unit of fuel than
the value's nesting depth always suffices, so the exhaustion case is
unreachable. -/
def goFmtV (v : GoVal) : String := goFmtVFuel (v.depth + 1) v

/-- The sorted header union built by `ConvertFeaturesToCSV`: Go collects
the key set of every feature's attribute map and sorts it
(`sort.Strings`), then appends the geometry column.  The set of keys is
modelled as the deduplicated concatenation; sorting makes the Go map
iteration order irrelevant. -/
def csvHeaders (features : List Feature) : List String :=
  (((features.flatMap (fun f => f.attributes.map Prod.fst)).dedup).insertionSort (· ≤ ·)) ++
    ["WKT_Geometry"]

/-- One CSV data row of `ConvertFeaturesToCSV`: the geometry column gets
the WKT serialization, any other column the `%v` rendering of the
attribute (empty for missing or nil). -/
def csvRow (headers : List String) (f : Feature) : List String :=
  headers.map (fun h =>
    if h = "WKT_Geometry" then geometryToWKT f.geometry
    else
      match lookupField f.attributes h with
      | some .vnull => ""
      | some v => goFmtV v
      | none => "")

/-- One field as written by `encoding/csv`: quoted when it contains the
separator, a quote or a line break, or starts with a space; quotes are
doubled. -/
def csvField (s : String) : String :=
  if s.toList.any (fun c => c = ',' || c = '"' || c = '\n' || c = '\r') ||
      (match s.toList with
       | c :: _ => c = ' ' || c = '\t'
       | [] => false) then
    "\"" ++ String.mk (s.toList.flatMap (fun c => if c = '"' then ['"', '"'] else [c])) ++ "\""
  else s

/-- `ConvertFeaturesToCSV` (pkg/convert/convert.go): empty input yields an
empty payload, otherwise the header row followed by one row per feature,
each record terminated by a newline. -/
def convertFeaturesToCSV (features : List Feature) : String :=
  if features.isEmpty then ""
  else
    String.join
      ((csvHeaders features :: features.map (csvRow (csvHeaders features))).map
        (fun row => String.intercalate "," (row.map csvField) ++ "\n"))

/-- The key loop of `getFeatureName`: `if val, ok := props[key]; ok && val != nil`
returns the `%v` rendering of the first hit. -/
def goFeatureNameLoop (props : List (String × GoVal)) : List String → String
  | [] => "Feature"
  | key :: rest =>
    match lookupField props key with
    | some .vnull => goFeatureNameLoop props rest
    | some v => goFmtV v
    | none => goFeatureNameLoop props rest

/-- `getFeatureName` (pkg/export/kml.go): the first non-nil property among
the fixed key candidates, rendered with `%v`; the same helper names GPX
waypoints and tracks (pkg/export/gpx.go calls it for every feature). -/
def getFeatureName (props : List (String × GoVal)) : String :=
  goFeatureNameLoop props ["name", "Name", "NAME", "title", "Title", "TITLE", "OBJECTID", "FID"]

/-- A unique-value class of the renderer metadata. -/
structure UniqueValueClass where
  label : String
  values : List (List String)
  symbol : Option Symbol

/-- A unique-value group of the renderer metadata. -/
structure UniqueValueGroup where
  heading : String
  classes : List UniqueValueClass

/-- The renderer read from layer metadata. -/
structure Renderer where
  rtype : String
  field1 : String
  defaultSymbol : Option Symbol
  uniqueValueGroups : List UniqueValueGroup

/-- Go map lookup on the value-to-symbol map. -/
def lookupSymbolKey : List (String × Symbol) → String → Option Symbol
  | [], _ => none
  | (k, v) :: rest, key => if k = key then some v else lookupSymbolKey rest key

/-- Go map assignment on the value-to-symbol map. -/
def setSymbolKey : List (String × Symbol) → String → Symbol → List (String × Symbol)
  | [], k, v => [(k, v)]
  | (k', v') :: rest, k, v =>
    if k' = k then (k, v) :: rest else (k', v') :: setSymbolKey rest k v

/-- The default-symbol pass of `processSelectedLayer` (main.go 726-745):
when the renderer declares a default symbol, every feature's attribute map
receives a copy of it under the reserved `symbol` key.  (The optional
on-disk export of the symbol image only rewrites the copy's URL and is not
modelled.) -/
def applyDefaultSymbol (renderer : Renderer) (features : List Feature) : List Feature :=
  match renderer.defaultSymbol with
  | none => features
  | some d =>
    features.map (fun f =>
      { f with attributes := setField f.attributes "symbol" (.vsymbolRef d) })

/-- The value-to-symbol lookup map of the unique-value pass (main.go
750-779): classes without a symbol contribute nothing; each declared value
tuple contributes its first element as a key; later entries overwrite. -/
def buildSymbolMap (groups : List UniqueValueGroup) : List (String × Symbol) :=
  groups.foldl (fun m g =>
    g.classes.foldl (fun m c =>
      match c.symbol with
      | none => m
      | some s =>
        c.values.foldl (fun m vs =>
          match vs with
          | [] => m
          | v0 :: _ => setSymbolKey m v0 s) m) m) []

/-- The per-feature assignment of the unique-value pass (main.go 782-798):
a feature that already carries a symbol is skipped; otherwise the driving
field's value is rendered with the `%v` verb and looked up; a miss leaves
the feature unchanged. -/
def uniqueValueAssign (field1 : String) (symbolMap : List (String × Symbol))
    (f : Feature) : Feature :=
  if (lookupField f.attributes "symbol").isSome then f
  else
    match lookupField f.attributes field1 with
    | some GoVal.vnull => f
    | none => f
    | some v =>
      match lookupSymbolKey symbolMap (goFmtV v) with
      | some s => { f with attributes := setField f.attributes "symbol" (.vsymbolRef s) }
      | none => f

/-- The symbol-resolution stage of `processSelectedLayer`: the default pass
followed, for a unique-value renderer with a driving field and declared
groups, by the per-feature unique-value pass. -/
def assignSymbols (renderer : Renderer) (features : List Feature) : List Feature :=
  let afterDefault := applyDefaultSymbol renderer features
  if renderer.rtype = "uniqueValue" ∧ renderer.field1 ≠ "" ∧
      renderer.uniqueValueGroups.isEmpty = false then
    afterDefault.map (uniqueValueAssign renderer.field1 (buildSymbolMap renderer.uniqueValueGroups))
  else afterDefault

/-- `strings.Contains` on character lists. -/
def strContainsList (sub : List Char) : List Char → Bool
  | [] => sub.isEmpty
  | c :: rest => sub.isPrefixOf (c :: rest) || strContainsList sub rest

/-- `strings.Contains(s, sub)`. -/
def strContains (s sub : String) : Bool := strContainsList sub.data s.data

/-- A feature query response document. -/
structure FeatureResponse where
  features : List Feature
  exceededTransferLimit : Bool
  errorMsg : Option String

/-- The classification tail of `fetchFeatures` (part_007 1093-1104): a
response-level API error fails; an empty result without the transfer-limit
flag is the "no features found" error; the flag alone emits a non-fatal
warning and the (possibly partial) feature list is returned. -/
def fetchFeaturesResult (baseURL layerID : String) (resp : FeatureResponse) :
    Except String (List Feature × List String) :=
  match resp.errorMsg with
  | some m => .error ("feature query API error: " ++ m)
  | none =>
    if resp.features.isEmpty ∧ resp.exceededTransferLimit = false then
      .error ("no features found for layer " ++ layerID ++ " at " ++ baseURL)
    else if resp.exceededTransferLimit then
      .ok (resp.features,
        ["  Warning: Feature transfer limit exceeded for layer " ++ layerID ++
          ". Results may be incomplete."])
    else .ok (resp.features, [])

/-- The feature-fetch step of `processSelectedLayer` (part_007 820-828):
the "no features found" diagnostic is collapsed to the sentinel error
string, other fetch errors are wrapped. -/
def processFetchStep (baseURL layerID : String) (resp : FeatureResponse) :
    Except String (List Feature × List String) :=
  match fetchFeaturesResult baseURL layerID resp with
  | .error e =>
    if strContains e "no features found" then .error "no features found"
    else .error ("failed to fetch features: " ++ e)
  | .ok r => .ok r

/-- The per-layer processing outcome. -/
inductive Outcome where
  | success
  | skippedExisting
  | skippedEmpty
  | failed (reason : String)
deriving DecidableEq

/-- The outcome classification in `main` (part_007 330-343): the two
sentinel error strings count the layer as skipped, any other error as
failed. -/
def classifyLayerError (e : String) : Outcome :=
  if e = "skipped existing file" then .skippedExisting
  else if e = "no features found" then .skippedEmpty
  else .failed e

/-- The fetch-stage outcome of one layer, with the later pipeline stages
abstracted as succeeding: an error is classified by `main`, success
carries the features and warnings onward. -/
def layerFetchOutcome (baseURL layerID : String) (resp : FeatureResponse) :
    Outcome × List Feature × List String :=
  match processFetchStep baseURL layerID resp with
  | .error e => (classifyLayerError e, [], [])
  | .ok (fs, ws) => (.success, fs, ws)

/-- One declared layer of a Feature Server metadata document (the `Layer`
struct): the id field is declared `interface` and holds whatever the
decoder produced. -/
structure ServiceLayer where
  id : GoVal
  name : String
  ltype : String
  geometryType : String

/-- Feature Server metadata. -/
structure FeatureServerMetadata where
  layers : List ServiceLayer
  tables : List ServiceLayer
  errorMsg : Option String

/-- A discovered work-list descriptor (the `AvailableLayerInfo` struct). -/
structure AvailableLayerInfo where
  id : String
  name : String
  ltype : String
  geometryType : String
  serviceURL : String
  parentPath : List String
  isFeatureLayer : Bool
deriving DecidableEq

/-- The FeatureServer branch of `fetchServiceLayers` (part_007 639-667):
a declared layer becomes a descriptor only when its dynamic id passes the
`json.Number` type assertion, otherwise it is skipped with a warning;
tables are never iterated. -/
def fetchServiceLayersFS (serviceURL : String) (md : FeatureServerMetadata) :
    Except String (List AvailableLayerInfo × List String) :=
  match md.errorMsg with
  | some m => .error ("feature Server API error: " ++ m)
  | none =>
    .ok (md.layers.foldl (fun acc layer =>
      match layer.id.asJsonNumber with
      | none =>
        (acc.1, acc.2 ++ ["      Warning: Could not parse layer ID for " ++ layer.name])
      | some idStr =>
        (acc.1 ++ [{ id := idStr, name := layer.name, ltype := layer.ltype,
                     geometryType := layer.geometryType, serviceURL := serviceURL,
                     parentPath := [], isFeatureLayer := true }], acc.2)) ([], []))

/-! ## Supporting lemmas -/

theorem lookupField_setField_self (m : List (String × GoVal)) (k : String) (v : GoVal) :
    lookupField (setField m k v) k = some v := by
  induction m with
  | nil => simp [setField, lookupField]
  | cons kv rest ih =>
    obtain ⟨k', v'⟩ := kv
    by_cases h : k' = k
    · simp [setField, h, lookupField]
    · simp [setField, h, lookupField, ih]

theorem closeRing_head_eq_last {α : Type} [DecidableEq α] (pts : List α) :
    (closeRing pts).head? = (closeRing pts).getLast? := by
  match pts with
  | [] => rfl
  | p :: rest =>
    simp only [closeRing]
    by_cases h : (p :: rest).getLast? = some p
    · simp [h]
    · rw [if_neg h, List.getLast?_concat]
      simp

theorem mem_wktPolyRings_closed {rs : List GoVal} {r : List String}
    (hr : r ∈ wktPolyRings rs) : r.head? = r.getLast? := by
  rw [wktPolyRings, List.mem_filterMap] at hr
  obtain ⟨a, _, ha⟩ := hr
  cases harr : a.asArr with
  | none => rw [harr] at ha; cases ha
  | some pts =>
    rw [harr] at ha
    simp only at ha
    by_cases he : (wktPoints pts).isEmpty
    · rw [if_pos he] at ha; cases ha
    · rw [if_neg he] at ha
      obtain rfl : closeRing (wktPoints pts) = r := Option.some.inj ha
      exact closeRing_head_eq_last _

theorem mem_geoRings_closed {rs : List GoVal} {r : List (Rat × Rat)}
    (hr : r ∈ geoRings rs) : r.head? = r.getLast? := by
  rw [geoRings, List.mem_filterMap] at hr
  obtain ⟨a, _, ha⟩ := hr
  cases harr : a.asArr with
  | none => rw [harr] at ha; cases ha
  | some pts =>
    rw [harr] at ha
    obtain rfl : closeRing (coordsOf pts) = r := Option.some.inj ha
    exact closeRing_head_eq_last _

theorem geoJSONGeometry_polygon_inv {g : Option GoVal} {rings : List (List (Rat × Rat))}
    (hg : geoJSONGeometry g = some (GeoGeom.polygon rings)) :
    ∃ l : List GoVal, rings = geoRings l := by
  match g with
  | none => cases hg
  | some gv =>
    simp only [geoJSONGeometry] at hg
    cases hobj : gv.asObj with
    | none => rw [hobj] at hg; cases hg
    | some fields =>
      rw [hobj] at hg
      simp only at hg
      cases hx : lookupField fields "x" with
      | some xv =>
        rw [hx] at hg
        simp only at hg
        cases hy : lookupField fields "y" with
        | some yv =>
          rw [hy] at hg
          simp only at hg
          cases hxn : xv.asNum with
          | some x =>
            rw [hxn] at hg
            cases hyn : yv.asNum with
            | some y => rw [hyn] at hg; simp only at hg; cases hg
            | none => rw [hyn] at hg; simp at hg
          | none => rw [hxn] at hg; simp at hg
        | none => rw [hy] at hg; simp at hg
      | none =>
        rw [hx] at hg
        simp only at hg
        cases hp : lookupField fields "paths" with
        | some pv =>
          rw [hp] at hg
          simp only at hg
          cases hpa : pv.asArr with
          | some parr =>
            rw [hpa] at hg
            match parr with
            | [] => simp at hg
            | fp :: rest =>
              simp only at hg
              cases hfa : fp.asArr with
              | some pts => rw [hfa] at hg; simp only at hg; cases hg
              | none => rw [hfa] at hg; simp at hg
          | none => rw [hpa] at hg; simp at hg
        | none =>
          rw [hp] at hg
          simp only at hg
          cases hri : lookupField fields "rings" with
          | some rv =>
            rw [hri] at hg
            simp only at hg
            cases hra : rv.asArr with
            | some rarr =>
              rw [hra] at hg
              match rarr with
              | [] => simp at hg
              | r0 :: rest =>
                simp only at hg
                obtain h := Option.some.inj hg
                obtain h2 := GeoGeom.polygon.inj h.symm
                exact ⟨r0 :: rest, h2⟩
            | none => rw [hra] at hg; simp at hg
          | none => rw [hri] at hg; simp at hg

/-! ## Claim C1 -/

/-- C1: every polygon ring present in the translated output, both in the
WKT ring lists assembled by `GeometryToWKT` and in the GeoJSON polygon
coordinates assembled by `ConvertToGeoJSON`, has its first point equal to
its last point, and a ring whose first and last valid points differ is
closed by appending a duplicate of the first point. -/
theorem c1_polygon_rings_closed :
    (∀ (rs : List GoVal), ∀ r ∈ wktPolyRings rs, r.head? = r.getLast?) ∧
    (∀ (g : Option GoVal) (rings : List (List (Rat × Rat))),
        geoJSONGeometry g = some (GeoGeom.polygon rings) →
        ∀ r ∈ rings, r.head? = r.getLast?) ∧
    (∀ (p : Rat × Rat) (pts : List (Rat × Rat)),
        (p :: pts).getLast? ≠ some p →
        closeRing (p :: pts) = (p :: pts) ++ [p]) := by
  refine ⟨?_, ?_, ?_⟩
  · intro rs r hr
    exact mem_wktPolyRings_closed hr
  · intro g rings hg r hr
    obtain ⟨l, rfl⟩ := geoJSONGeometry_polygon_inv hg
    exact mem_geoRings_closed hr
  · intro p pts h
    simp [closeRing, h]

/-- The concrete unclosed-ring polygon rings value used by the C1 witness. -/
def c1ExampleRings : List GoVal :=
  [GoVal.varr [GoVal.varr [GoVal.vnum (-1), GoVal.vnum 1],
               GoVal.varr [GoVal.vnum (-2), GoVal.vnum 1],
               GoVal.varr [GoVal.vnum (-2), GoVal.vnum 2]]]

/-- C1 witness: the unclosed source ring ((-1,1),(-2,1),(-2,2)) yields a
closed WKT ring, and the ring-closing step appends the duplicated first
point. -/
theorem c1_witness :
    ((wktPolyRings c1ExampleRings).head?.getD []).head? =
      ((wktPolyRings c1ExampleRings).head?.getD []).getLast? ∧
    closeRing [((-1 : Rat), (1 : Rat)), ((-2 : Rat), (1 : Rat)), ((-2 : Rat), (2 : Rat))] =
      [((-1 : Rat), (1 : Rat)), ((-2 : Rat), (1 : Rat)), ((-2 : Rat), (2 : Rat)),
       ((-1 : Rat), (1 : Rat))] := by
  constructor
  · exact c1_polygon_rings_closed.1 c1ExampleRings _ (by decide)
  · exact c1_polygon_rings_closed.2.2 ((-1 : Rat), (1 : Rat))
      [((-2 : Rat), (1 : Rat)), ((-2 : Rat), (2 : Rat))] (by decide)

/-! ## Claim C2 -/

theorem wktPoints_eq_map (ps : List GoVal) :
    wktPoints ps = (coordsOf ps).map (fun xy => fmt10 xy.1 ++ " " ++ fmt10 xy.2) := by
  rw [wktPoints, coordsOf, List.map_filterMap]

/-- C2 counterexample: the partial geometry whose `paths` array holds one
empty path converts to WKT as the empty string, but `ConvertToGeoJSON`
gives it a present (degenerate) LineString geometry rather than an absent
one, refuting the claim that every such malformed geometry yields an
absent GeoJSON geometry. -/
theorem c2_counterexample :
    geometryToWKT (some (GoVal.vobj [("paths", GoVal.varr [GoVal.varr []])])) = "" ∧
    geoJSONGeometry (some (GoVal.vobj [("paths", GoVal.varr [GoVal.varr []])])) =
      some (GeoGeom.line []) := by
  exact ⟨rfl, rfl⟩

/-- C2 (amended): conversion to WKT returns the empty string on every
malformed or partial geometry (nil, non-map, missing or non-numeric point
coordinates, missing/non-array/empty paths and rings, or no valid
vertices); conversion to GeoJSON yields an absent geometry in those cases
too, except that a non-empty `paths` array whose first path is an array,
and a non-empty `rings` array, produce a present degenerate geometry even
when no valid numeric vertex remains. -/
theorem c2_amended :
    (geometryToWKT none = "" ∧ geoJSONGeometry none = none) ∧
    (∀ g : GoVal, g.asObj = none →
      geometryToWKT (some g) = "" ∧ geoJSONGeometry (some g) = none) ∧
    (∀ fields, lookupField fields "x" = none → lookupField fields "paths" = none →
      lookupField fields "rings" = none →
      geometryToWKT (some (.vobj fields)) = "" ∧
      geoJSONGeometry (some (.vobj fields)) = none) ∧
    (∀ fields xv, lookupField fields "x" = some xv → lookupField fields "y" = none →
      geometryToWKT (some (.vobj fields)) = "" ∧
      geoJSONGeometry (some (.vobj fields)) = none) ∧
    (∀ fields xv yv, lookupField fields "x" = some xv →
      lookupField fields "y" = some yv → xv.asNum = none ∨ yv.asNum = none →
      geometryToWKT (some (.vobj fields)) = "" ∧
      geoJSONGeometry (some (.vobj fields)) = none) ∧
    (∀ fields pv, lookupField fields "x" = none →
      lookupField fields "paths" = some pv → pv.asArr = none ∨ pv.asArr = some [] →
      geometryToWKT (some (.vobj fields)) = "" ∧
      geoJSONGeometry (some (.vobj fields)) = none) ∧
    (∀ fields pv fp rest, lookupField fields "x" = none →
      lookupField fields "paths" = some pv → pv.asArr = some (fp :: rest) →
      fp.asArr = none →
      geometryToWKT (some (.vobj fields)) = "" ∧
      geoJSONGeometry (some (.vobj fields)) = none) ∧
    (∀ fields pv fp rest pts, lookupField fields "x" = none →
      lookupField fields "paths" = some pv → pv.asArr = some (fp :: rest) →
      fp.asArr = some pts → coordsOf pts = [] →
      geometryToWKT (some (.vobj fields)) = "" ∧
      geoJSONGeometry (some (.vobj fields)) = some (GeoGeom.line [])) ∧
    (∀ fields rv, lookupField fields "x" = none →
      lookupField fields "paths" = none → lookupField fields "rings" = some rv →
      rv.asArr = none ∨ rv.asArr = some [] →
      geometryToWKT (some (.vobj fields)) = "" ∧
      geoJSONGeometry (some (.vobj fields)) = none) ∧
    (∀ fields rv r0 rest, lookupField fields "x" = none →
      lookupField fields "paths" = none → lookupField fields "rings" = some rv →
      rv.asArr = some (r0 :: rest) → wktPolyRings (r0 :: rest) = [] →
      geometryToWKT (some (.vobj fields)) = "" ∧
      geoJSONGeometry (some (.vobj fields)) =
        some (GeoGeom.polygon (geoRings (r0 :: rest)))) := by
  refine ⟨⟨rfl, rfl⟩, ?_, ?_, ?_, ?_, ?_, ?_, ?_, ?_, ?_⟩
  · intro g hg
    cases g <;> simp [GoVal.asObj] at hg <;>
      simp [geometryToWKT, geoJSONGeometry, GoVal.asObj]
  · intro fields hx hp hr
    constructor <;> simp [geometryToWKT, geoJSONGeometry, GoVal.asObj, hx, hp, hr]
  · intro fields xv hx hy
    constructor <;> simp [geometryToWKT, geoJSONGeometry, GoVal.asObj, hx, hy]
  · intro fields xv yv hx hy hnum
    rcases hnum with h | h <;>
      constructor <;>
        simp [geometryToWKT, geoJSONGeometry, GoVal.asObj, hx, hy, h]
  · intro fields pv hx hp harr
    rcases harr with h | h <;>
      constructor <;> simp [geometryToWKT, geoJSONGeometry, GoVal.asObj, hx, hp, h]
  · intro fields pv fp rest hx hp hpa hfa
    constructor <;>
      simp [geometryToWKT, geoJSONGeometry, GoVal.asObj, hx, hp, hpa, hfa]
  · intro fields pv fp rest pts hx hp hpa hfa hc
    constructor <;>
      simp [geometryToWKT, geoJSONGeometry, GoVal.asObj, hx, hp, hpa, hfa,
        wktPoints_eq_map, hc]
  · intro fields rv hx hp hr harr
    rcases harr with h | h <;>
      constructor <;> simp [geometryToWKT, geoJSONGeometry, GoVal.asObj, hx, hp, hr, h]
  · intro fields rv r0 rest hx hp hr hra hw
    constructor <;>
      simp [geometryToWKT, geoJSONGeometry, GoVal.asObj, hx, hp, hr, hra, hw]

/-- C2 witness: a non-map geometry value degrades to an empty WKT string
and an absent GeoJSON geometry. -/
theorem c2_witness :
    geometryToWKT (some (GoVal.vstr "oops")) = "" ∧
    geoJSONGeometry (some (GoVal.vstr "oops")) = none :=
  c2_amended.2.1 (GoVal.vstr "oops") rfl

/-! ## Claim C7 -/

/-- C7 counterexample: a feature whose geometry is nil is dropped from the
GeoJSON FeatureCollection, so the output does not contain one feature per
input feature. -/
theorem c7_counterexample :
    (convertToGeoJSON [{ attributes := [("OBJECTID", GoVal.vnum 1)], geometry := none }]).features.length ≠
      ([{ attributes := [("OBJECTID", GoVal.vnum 1)], geometry := none }] : List Feature).length := by
  decide

/-- C7 (amended): `ConvertToGeoJSON` emits a FeatureCollection with the
fixed CRS84 URN and one output feature per input feature whose geometry
translates to a present canonical geometry; each output feature carries
the translated geometry, the original attributes (the attached symbol
travels inside them, and additionally populates the side field when it is
a map), one-to-one; geometry-less features are omitted. -/
theorem c7_amended (features : List Feature) :
    (convertToGeoJSON features).gtype = "FeatureCollection" ∧
    (convertToGeoJSON features).crsType = "name" ∧
    (convertToGeoJSON features).crsName = "urn:ogc:def:crs:OGC:1.3:CRS84" ∧
    (convertToGeoJSON features).features.length =
      (features.filter (fun f => (geoJSONGeometry f.geometry).isSome)).length ∧
    ∀ gf ∈ (convertToGeoJSON features).features,
      gf.ftype = "Feature" ∧
      ∃ f ∈ features, gf.properties = f.attributes ∧
        gf.geometry = geoJSONGeometry f.geometry ∧
        gf.symbol = symbolOfAttrs f.attributes := by
  refine ⟨rfl, rfl, rfl, ?_, ?_⟩
  · show (features.filterMap _).length = _
    rw [List.length_filterMap_eq_countP, List.countP_eq_length_filter]
    congr 1
    apply List.filter_congr
    intro f _
    cases h : geoJSONGeometry f.geometry <;> simp [h]
  · intro gf hgf
    rw [show (convertToGeoJSON features).features = features.filterMap _ from rfl,
      List.mem_filterMap] at hgf
    obtain ⟨f, hf, heq⟩ := hgf
    cases h : geoJSONGeometry f.geometry with
    | none => rw [h] at heq; cases heq
    | some geom =>
      rw [h] at heq
      obtain rfl := Option.some.inj heq
      exact ⟨rfl, f, hf, rfl, by rw [h], rfl⟩

/-- The concrete point feature used by the C7 witness. -/
def c7ExampleFeature : Feature :=
  { attributes := [("name", GoVal.vstr "pt")],
    geometry := some (GoVal.vobj [("x", GoVal.vnum (-122)), ("y", GoVal.vnum 37)]) }

/-- The GeoJSON feature produced for `c7ExampleFeature`. -/
def c7ExampleOut : GeoJSONFeature :=
  { ftype := "Feature", properties := [("name", GoVal.vstr "pt")],
    geometry := some (GeoGeom.point (-122) 37), symbol := none }

/-- C7 witness: converting a single point feature yields the fixed CRS84
URN and a feature typed "Feature" carrying the original attributes. -/
theorem c7_witness :
    (convertToGeoJSON [c7ExampleFeature]).crsName = "urn:ogc:def:crs:OGC:1.3:CRS84" ∧
    c7ExampleOut.ftype = "Feature" ∧
    c7ExampleOut.properties = c7ExampleFeature.attributes := by
  obtain ⟨hf, f, hfmem, hp, _, _⟩ :=
    (c7_amended [c7ExampleFeature]).2.2.2.2 c7ExampleOut (List.mem_singleton.mpr rfl)
  refine ⟨(c7_amended [c7ExampleFeature]).2.2.1, hf, ?_⟩
  rw [hp, List.mem_singleton.mp hfmem]

/-! ## Claim C10 -/

/-- Modelled from the claim's wording: the stringified value of the first
non-null property among the candidate keys in their fixed order, else the
literal "Feature". -/
def featureNameSpec (props : List (String × GoVal)) : String :=
  match (["name", "Name", "NAME", "title", "Title", "TITLE", "OBJECTID", "FID"].filterMap
      (fun k =>
        match lookupField props k with
        | some GoVal.vnull => none
        | some v => some v
        | none => none)).head? with
  | some v => goFmtV v
  | none => "Feature"

theorem goFeatureNameLoop_spec (props : List (String × GoVal)) (keys : List String) :
    goFeatureNameLoop props keys =
      match (keys.filterMap (fun k =>
          match lookupField props k with
          | some GoVal.vnull => none
          | some v => some v
          | none => none)).head? with
      | some v => goFmtV v
      | none => "Feature" := by
  induction keys with
  | nil => rfl
  | cons k rest ih =>
    rw [goFeatureNameLoop, List.filterMap_cons]
    cases h : lookupField props k with
    | none => exact ih
    | some v =>
      cases v <;> first
        | exact ih
        | rfl

/-- C10: the KML placemark / GPX waypoint name helper returns the
stringified value of the first non-null property among "name", "Name",
"NAME", "title", "Title", "TITLE", "OBJECTID", "FID" in that order, and the
literal "Feature" when none exists (including empty properties). -/
theorem c10_feature_name (props : List (String × GoVal)) :
    getFeatureName props = featureNameSpec props :=
  goFeatureNameLoop_spec props _

/-! ## Claim C8 -/

/-- Modelled from the claim's wording: the header row is the sorted union
of all features' attribute keys followed by the trailing WKT geometry
column. -/
def csvHeaderSpec (features : List Feature) : List String :=
  ((features.flatMap (fun f => f.attributes.map Prod.fst)).dedup.insertionSort (· ≤ ·)) ++
    ["WKT_Geometry"]

/-- Modelled from the claim's wording: a data row stringifies the
feature's attribute values under the sorted key union (empty string for a
missing or null attribute), followed by the WKT geometry cell. -/
def csvRowSpec (features : List Feature) (f : Feature) : List String :=
  (((features.flatMap (fun g => g.attributes.map Prod.fst)).dedup.insertionSort (· ≤ ·)).map
    (fun h =>
      match lookupField f.attributes h with
      | some GoVal.vnull => ""
      | some v => goFmtV v
      | none => "")) ++ [geometryToWKT f.geometry]

/-- C8 counterexample: a feature carrying an attribute literally named
"WKT_Geometry" gets that attribute's cell overwritten by the geometry
column logic, so the data row does not stringify the attribute value as
the claim states. -/
theorem c8_counterexample :
    csvRow (csvHeaders [{ attributes := [("WKT_Geometry", GoVal.vstr "foo")], geometry := none }])
        { attributes := [("WKT_Geometry", GoVal.vstr "foo")], geometry := none } ≠
      csvRowSpec [{ attributes := [("WKT_Geometry", GoVal.vstr "foo")], geometry := none }]
        { attributes := [("WKT_Geometry", GoVal.vstr "foo")], geometry := none } := by
  decide

/-- C8 (amended): the CSV header row is the sorted union of the features'
attribute keys followed by the trailing "WKT_Geometry" column, and every
data row stringifies the scalar attribute values (empty string for a
missing or null attribute) with the WKT geometry as the last cell, except
that a cell whose column is named exactly "WKT_Geometry" always holds the
WKT geometry, shadowing any attribute of that name. -/
theorem c8_amended (features : List Feature) :
    csvHeaders features = csvHeaderSpec features ∧
    (csvHeaders features).getLast? = some "WKT_Geometry" ∧
    (∀ f : Feature, csvRow (csvHeaders features) f =
      (((features.flatMap (fun g => g.attributes.map Prod.fst)).dedup.insertionSort (· ≤ ·)).map
        (fun h =>
          if h = "WKT_Geometry" then geometryToWKT f.geometry
          else
            match lookupField f.attributes h with
            | some GoVal.vnull => ""
            | some v => goFmtV v
            | none => "")) ++ [geometryToWKT f.geometry]) ∧
    ("WKT_Geometry" ∉ features.flatMap (fun g => g.attributes.map Prod.fst) →
      ∀ f : Feature, csvRow (csvHeaders features) f = csvRowSpec features f) ∧
    (features.isEmpty = false →
      convertFeaturesToCSV features =
        String.join ((csvHeaders features :: features.map (csvRow (csvHeaders features))).map
          (fun row => String.intercalate "," (row.map csvField) ++ "\n"))) := by
  refine ⟨rfl, List.getLast?_concat _, ?_, ?_, ?_⟩
  · intro f
    rw [csvRow, csvHeaders, List.map_append]
    rfl
  · intro hnot f
    rw [csvRow, csvHeaders, csvRowSpec, List.map_append]
    congr 1
    apply List.map_congr_left
    intro h hmem
    have hne : h ≠ "WKT_Geometry" := by
      intro heq
      apply hnot
      rw [← heq]
      have h1 := (List.perm_insertionSort (· ≤ ·)
        (features.flatMap (fun g => g.attributes.map Prod.fst)).dedup).mem_iff.mp hmem
      exact List.mem_dedup.mp h1
    rw [if_neg hne]
  · intro hne
    rw [convertFeaturesToCSV, if_neg (by simp [hne])]

/-- C8 witness: on a feature list without the pathological column name,
the produced data row matches the claim's row description. -/
theorem c8_witness :
    csvRow (csvHeaders [{ attributes := [("a", GoVal.vstr "x")], geometry := none }])
        { attributes := [("a", GoVal.vstr "x")], geometry := none } =
      csvRowSpec [{ attributes := [("a", GoVal.vstr "x")], geometry := none }]
        { attributes := [("a", GoVal.vstr "x")], geometry := none } :=
  (c8_amended [{ attributes := [("a", GoVal.vstr "x")], geometry := none }]).2.2.2.1
    (by decide) _

/-! ## Claim C9 -/

/-- C9: when the renderer declares a default symbol every feature of the
resolution output carries it, and a subsequent unique-value class match
never overwrites it; without a default symbol, a feature whose
driving-field value matches no class (or is missing or null) is left
symbol-less and passes through unchanged. -/
theorem c9_symbol_resolution (renderer : Renderer) (features : List Feature) :
    (∀ d, renderer.defaultSymbol = some d →
      ∀ g ∈ assignSymbols renderer features,
        lookupField g.attributes "symbol" = some (GoVal.vsymbolRef d)) ∧
    (renderer.defaultSymbol = none →
      ∀ f ∈ features,
        lookupField f.attributes "symbol" = none →
        (∀ v, lookupField f.attributes renderer.field1 = some v → v ≠ GoVal.vnull →
          lookupSymbolKey (buildSymbolMap renderer.uniqueValueGroups) (goFmtV v) = none) →
        uniqueValueAssign renderer.field1 (buildSymbolMap renderer.uniqueValueGroups) f = f ∧
        f ∈ assignSymbols renderer features) := by
  constructor
  · intro d hd g hg
    rw [assignSymbols] at hg
    have hdef : applyDefaultSymbol renderer features = features.map (fun f =>
        { f with attributes := setField f.attributes "symbol" (GoVal.vsymbolRef d) }) := by
      rw [applyDefaultSymbol, hd]
    by_cases hc : renderer.rtype = "uniqueValue" ∧ renderer.field1 ≠ "" ∧
        renderer.uniqueValueGroups.isEmpty = false
    · rw [if_pos hc, hdef, List.map_map] at hg
      obtain ⟨f, _, hfg⟩ := List.mem_map.mp hg
      have hlook : lookupField (setField f.attributes "symbol" (GoVal.vsymbolRef d)) "symbol" =
          some (GoVal.vsymbolRef d) := lookupField_setField_self _ _ _
      have hskip : uniqueValueAssign renderer.field1 (buildSymbolMap renderer.uniqueValueGroups)
          { f with attributes := setField f.attributes "symbol" (GoVal.vsymbolRef d) } =
          { f with attributes := setField f.attributes "symbol" (GoVal.vsymbolRef d) } := by
        rw [uniqueValueAssign, if_pos]
        rw [show ({ f with attributes := setField f.attributes "symbol" (GoVal.vsymbolRef d) } :
          Feature).attributes = setField f.attributes "symbol" (GoVal.vsymbolRef d) from rfl,
          hlook]
        rfl
      rw [Function.comp_apply, hskip] at hfg
      rw [← hfg]
      exact hlook
    · rw [if_neg hc, hdef] at hg
      obtain ⟨f, _, hfg⟩ := List.mem_map.mp hg
      rw [← hfg]
      exact lookupField_setField_self _ _ _
  · intro hd f hf hsym hmiss
    have huva : uniqueValueAssign renderer.field1 (buildSymbolMap renderer.uniqueValueGroups) f
        = f := by
      rw [uniqueValueAssign, if_neg (by rw [hsym]; simp)]
      cases hlf : lookupField f.attributes renderer.field1 with
      | none => rfl
      | some v =>
        cases v with
        | vnull => rfl
        | vbool b => simp [hmiss _ hlf (by intro h; cases h)]
        | vnum q => simp [hmiss _ hlf (by intro h; cases h)]
        | vstr str => simp [hmiss _ hlf (by intro h; cases h)]
        | vjsonNumber str => simp [hmiss _ hlf (by intro h; cases h)]
        | vsymbolRef sy => simp [hmiss _ hlf (by intro h; cases h)]
        | varr items => simp [hmiss _ hlf (by intro h; cases h)]
        | vobj flds => simp [hmiss _ hlf (by intro h; cases h)]
    refine ⟨huva, ?_⟩
    rw [assignSymbols]
    have hdef : applyDefaultSymbol renderer features = features := by
      rw [applyDefaultSymbol, hd]
    by_cases hc : renderer.rtype = "uniqueValue" ∧ renderer.field1 ≠ "" ∧
        renderer.uniqueValueGroups.isEmpty = false
    · rw [if_pos hc, hdef]
      rw [← huva]
      exact List.mem_map_of_mem _ hf
    · rw [if_neg hc, hdef]
      exact hf

/-- The default symbol used by the C9 witness. -/
def c9DefaultSymbol : Symbol :=
  { stype := "esriPMS", url := "default.png", imageData := "", contentType := "",
    width := 12, height := 12, xoffset := 0, yoffset := 0, angle := 0 }

/-- The class symbol used by the C9 witness. -/
def c9ClassSymbol : Symbol :=
  { stype := "esriPMS", url := "classA.png", imageData := "", contentType := "",
    width := 16, height := 16, xoffset := 0, yoffset := 0, angle := 0 }

/-- A unique-value renderer with a default symbol and one class, used by
the C9 witness. -/
def c9ExampleRenderer : Renderer :=
  { rtype := "uniqueValue", field1 := "TYPE", defaultSymbol := some c9DefaultSymbol,
    uniqueValueGroups :=
      [{ heading := "",
         classes := [{ label := "A", values := [["A"]], symbol := some c9ClassSymbol }] }] }

/-- The same renderer without a default symbol, used by the C9 witness. -/
def c9ExampleRenderer2 : Renderer :=
  { rtype := "uniqueValue", field1 := "TYPE", defaultSymbol := none,
    uniqueValueGroups :=
      [{ heading := "",
         classes := [{ label := "A", values := [["A"]], symbol := some c9ClassSymbol }] }] }

/-- A feature whose driving field matches the class. -/
def c9ExampleFeature : Feature := { attributes := [("TYPE", GoVal.vstr "A")], geometry := none }

/-- A feature whose driving field matches no class. -/
def c9ExampleFeatureB : Feature := { attributes := [("TYPE", GoVal.vstr "B")], geometry := none }

/-- The resolution output for `c9ExampleFeature` under `c9ExampleRenderer`:
it keeps the default symbol even though class "A" also matches. -/
def c9ExampleOut : Feature :=
  { attributes := [("TYPE", GoVal.vstr "A"), ("symbol", GoVal.vsymbolRef c9DefaultSymbol)],
    geometry := none }

/-- C9 witness: with a declared default symbol the matching feature still
holds the default after resolution, and without one a class miss leaves
the feature unchanged. -/
theorem c9_witness :
    lookupField c9ExampleOut.attributes "symbol" = some (GoVal.vsymbolRef c9DefaultSymbol) ∧
    uniqueValueAssign c9ExampleRenderer2.field1
        (buildSymbolMap c9ExampleRenderer2.uniqueValueGroups) c9ExampleFeatureB =
      c9ExampleFeatureB := by
  constructor
  · refine (c9_symbol_resolution c9ExampleRenderer [c9ExampleFeature]).1 c9DefaultSymbol rfl
      c9ExampleOut ?_
    rw [show assignSymbols c9ExampleRenderer [c9ExampleFeature] = [c9ExampleOut] from rfl]
    exact List.mem_singleton.mpr rfl
  · refine ((c9_symbol_resolution c9ExampleRenderer2 [c9ExampleFeatureB]).2 rfl
      c9ExampleFeatureB (List.mem_cons_self _ _) rfl ?_).1
    intro v hv _
    rw [show lookupField c9ExampleFeatureB.attributes c9ExampleRenderer2.field1 =
      some (GoVal.vstr "B") from rfl] at hv
    obtain rfl := Option.some.inj hv
    rfl

/-! ## Claim C6 -/

theorem strContainsList_append (sub t : List Char) :
    strContainsList sub (sub ++ t) = true := by
  match sub with
  | [] =>
    match t with
    | [] => rfl
    | c :: r => simp [strContainsList, List.isPrefixOf]
  | a :: sub2 =>
    have hpre : (a :: sub2).isPrefixOf ((a :: sub2) ++ t) = true :=
      List.isPrefixOf_iff_prefix.mpr (List.prefix_append _ _)
    simp only [List.cons_append] at hpre
    simp [strContainsList, List.cons_append, hpre]

/-- C6: a feature query response with an empty feature list and no
transfer-limit flag makes the layer outcome skipped ("no features found"),
never failed; a response with the flag set and a non-empty list proceeds
with the partial feature list plus a non-fatal warning. -/
theorem c6_fetch_outcomes (baseURL layerID : String) (resp : FeatureResponse)
    (herr : resp.errorMsg = none) :
    (resp.features = [] → resp.exceededTransferLimit = false →
      (layerFetchOutcome baseURL layerID resp).1 = Outcome.skippedEmpty ∧
      ∀ r, (layerFetchOutcome baseURL layerID resp).1 ≠ Outcome.failed r) ∧
    (resp.exceededTransferLimit = true → resp.features ≠ [] →
      processFetchStep baseURL layerID resp =
        Except.ok (resp.features,
          ["  Warning: Feature transfer limit exceeded for layer " ++ layerID ++
            ". Results may be incomplete."])) := by
  constructor
  · intro hempty hlimit
    have hres : fetchFeaturesResult baseURL layerID resp =
        Except.error ("no features found for layer " ++ layerID ++ " at " ++ baseURL) := by
      rw [fetchFeaturesResult, herr]
      simp [hempty, hlimit]
    have hmsg : strContains
        ("no features found for layer " ++ layerID ++ " at " ++ baseURL)
        "no features found" = true := by
      rw [strContains]
      have hsplit : ("no features found for layer " ++ layerID ++ " at " ++ baseURL).data =
          "no features found".data ++ (" for layer " ++ layerID ++ " at " ++ baseURL).data := by
        have h1 : ("no features found for layer " : String) =
            "no features found" ++ " for layer " := rfl
        rw [h1]
        simp [String.data_append, List.append_assoc]
      rw [hsplit]
      exact strContainsList_append _ _
    have hstep : processFetchStep baseURL layerID resp = Except.error "no features found" := by
      rw [processFetchStep, hres]
      simp [hmsg]
    constructor
    · rw [layerFetchOutcome, hstep]
      rfl
    · intro r
      rw [layerFetchOutcome, hstep]
      intro hcon
      exact Outcome.noConfusion (show Outcome.skippedEmpty = Outcome.failed r from hcon)
  · intro hlimit hne
    have hres : fetchFeaturesResult baseURL layerID resp =
        Except.ok (resp.features,
          ["  Warning: Feature transfer limit exceeded for layer " ++ layerID ++
            ". Results may be incomplete."]) := by
      rw [fetchFeaturesResult, herr]
      simp [hlimit, hne]
    rw [processFetchStep, hres]

/-- C6 witness: an empty response without the flag is classified skipped,
and a flagged non-empty response proceeds with a warning. -/
theorem c6_witness :
    (layerFetchOutcome "https://h/S/FeatureServer" "0"
        { features := [], exceededTransferLimit := false, errorMsg := none }).1 =
      Outcome.skippedEmpty ∧
    processFetchStep "https://h/S/FeatureServer" "0"
        { features := [{ attributes := [], geometry := none }],
          exceededTransferLimit := true, errorMsg := none } =
      Except.ok ([{ attributes := [], geometry := none }],
        ["  Warning: Feature transfer limit exceeded for layer 0. Results may be incomplete."]) := by
  constructor
  · exact ((c6_fetch_outcomes "https://h/S/FeatureServer" "0" _ rfl).1 rfl rfl).1
  · exact (c6_fetch_outcomes "https://h/S/FeatureServer" "0" _ rfl).2 rfl (by simp)

/-! ## Claim C3 -/

theorem decodeValue_asJsonNumber (j : Json) : (decodeValue j).asJsonNumber = none := by
  cases j <;> simp [decodeValue, GoVal.asJsonNumber]

theorem fetchServiceLayersFS_foldl (serviceURL : String) (warn : ServiceLayer → String)
    (layers : List ServiceLayer) (acc : List AvailableLayerInfo × List String)
    (hdec : ∀ l ∈ layers, l.id.asJsonNumber = none)
    (hwarn : ∀ l, warn l = "      Warning: Could not parse layer ID for " ++ l.name) :
    layers.foldl (fun acc layer =>
      match layer.id.asJsonNumber with
      | none =>
        (acc.1, acc.2 ++ ["      Warning: Could not parse layer ID for " ++ layer.name])
      | some idStr =>
        (acc.1 ++ [{ id := idStr, name := layer.name, ltype := layer.ltype,
                     geometryType := layer.geometryType, serviceURL := serviceURL,
                     parentPath := [], isFeatureLayer := true }], acc.2)) acc =
      (acc.1, acc.2 ++ layers.map warn) := by
  induction layers generalizing acc with
  | nil => simp
  | cons l rest ih =>
    rw [List.foldl_cons, hdec l (List.mem_cons_self _ _)]
    rw [ih _ (fun x hx => hdec x (List.mem_cons_of_mem _ hx))]
    simp [hwarn]

/-- C3 (against the code as written): because `fetchAndDecode` uses the
default JSON decoder, a declared layer id always decodes to `float64` (or
another plain dynamic type) and never to `json.Number`, so the
`json.Number` type assertion fails for every declared layer: FeatureServer
discovery produces zero descriptors and one warning per declared layer,
not one descriptor per layer as the claim (and spec) state. -/
theorem c3_feature_server_discovery (serviceURL : String) (md : FeatureServerMetadata)
    (herr : md.errorMsg = none)
    (hdec : ∀ l ∈ md.layers, ∃ j : Json, l.id = decodeValue j) :
    fetchServiceLayersFS serviceURL md =
      Except.ok ([], md.layers.map
        (fun l => "      Warning: Could not parse layer ID for " ++ l.name)) := by
  rw [fetchServiceLayersFS, herr]
  have h := fetchServiceLayersFS_foldl serviceURL
    (fun l => "      Warning: Could not parse layer ID for " ++ l.name) md.layers ([], [])
    (by
      intro l hl
      obtain ⟨j, hj⟩ := hdec l hl
      rw [hj]
      exact decodeValue_asJsonNumber j)
    (fun _ => rfl)
  simp only [List.nil_append] at h
  rw [h]

/-- The one-layer FeatureServer metadata used by the C3 witness, with the
id decoded from the JSON number 0 by the default decoder. -/
def c3ExampleMetadata : FeatureServerMetadata :=
  { layers := [{ id := decodeValue (Json.jnum 0), name := "Roads",
                 ltype := "Feature Layer", geometryType := "esriGeometryPolyline" }],
    tables := [], errorMsg := none }

/-- C3 witness: the declared layer with JSON id 0 is skipped with the
warning, and no descriptor is produced. -/
theorem c3_witness :
    fetchServiceLayersFS "https://example.com/ArcGIS/rest/services/X/FeatureServer"
        c3ExampleMetadata =
      Except.ok ([], ["      Warning: Could not parse layer ID for Roads"]) := by
  have h := c3_feature_server_discovery
    "https://example.com/ArcGIS/rest/services/X/FeatureServer" c3ExampleMetadata rfl
    (by
      intro l hl
      exact ⟨Json.jnum 0, by rw [List.mem_singleton.mp hl]⟩)
  rw [h]
  rfl


/-! ## Claim C5 -/

/-- A declared Map Service layer (the `MapServiceLayer` struct). -/
structure MapServiceLayer where
  id : Int
  name : String
  ltype : String
  geometryType : String
  parentLayerId : Int

/-- Map Service metadata. -/
structure MapServiceMetadata where
  layers : List MapServiceLayer
  errorMsg : Option String

/-- The `layerMap` built by the MapServer branch: Go map insertion over the
declared layer slice (a later duplicate id overwrites an earlier one). -/
def layerMapOf (layers : List MapServiceLayer) : Int → Option MapServiceLayer :=
  layers.foldl (fun m l => fun i => if i = l.id then some l else m i) (fun _ => none)

/-- Lookup in the memoized `layerHierarchy` map. -/
def lookupHier : List (Int × List String) → Int → Option (List String)
  | [], _ => none
  | (k, v) :: rest, key => if k = key then some v else lookupHier rest key

/-- Assignment in the memoized `layerHierarchy` map. -/
def setHier : List (Int × List String) → Int → List String → List (Int × List String)
  | [], k, v => [(k, v)]
  | (k', v') :: rest, k, v =>
    if k' = k then (k, v) :: rest else (k', v') :: setHier rest k v

/-- The memoized `buildPath` closure of the MapServer branch (part_007
687-709): a memo hit returns at once; otherwise the id is pre-seeded with
the empty path (the guard that also stops a malformed cycle), the parent
path is built recursively while the parent pointer is not the -1 sentinel,
and the computed path is stored.  The Go recursion needs no explicit
bound: every level inserts a fresh memo key drawn from the layer map, so
its depth is at most the number of declared layers; the bound here plays
that role, and the callers pass one that the recursion can never
exhaust. -/
def buildPath (lm : Int → Option MapServiceLayer) :
    Nat → List (Int × List String) → Int → List String × List (Int × List String)
  | 0, memo, _ => ([], memo)
  | fuel + 1, memo, layerID =>
    match lookupHier memo layerID with
    | some path => (path, memo)
    | none =>
      match lm layerID with
      | none => ([], memo)
      | some layer =>
        let memo1 := setHier memo layerID []
        if layer.parentLayerId ≠ -1 then
          let r := buildPath lm fuel memo1 layer.parentLayerId
          (r.1 ++ [layer.name], setHier r.2 layerID (r.1 ++ [layer.name]))
        else
          ([layer.name], setHier memo1 layerID [layer.name])

/-- The MapServer branch of `fetchServiceLayers` (part_007 668-730): only
layers typed "Feature Layer" produce a descriptor; each descriptor's
parent path is the memoized ancestor path without the layer's own name;
the memo map is shared across the whole loop. -/
def fetchServiceLayersMS (serviceURL : String) (md : MapServiceMetadata) :
    Except String (List AvailableLayerInfo) :=
  match md.errorMsg with
  | some m => Except.error ("map Server API error: " ++ m)
  | none =>
    Except.ok
      (md.layers.foldl
        (fun (acc : List AvailableLayerInfo × List (Int × List String)) layer =>
          if layer.ltype = "Feature Layer" then
            let r := buildPath (layerMapOf md.layers) (md.layers.length + 1) acc.2 layer.id
            (acc.1 ++ [{ id := toString layer.id, name := layer.name, ltype := layer.ltype,
                         geometryType := layer.geometryType, serviceURL := serviceURL,
                         parentPath := r.1.dropLast, isFeatureLayer := true }], r.2)
          else acc) ([], [])).1

/-- Modelled from the claim's wording: the ancestor-name breadcrumb
obtained by naively following each layer's parent pointer until the -1
sentinel, bounded by the given walk length. -/
def naivePath (lm : Int → Option MapServiceLayer) : Nat → Int → List String
  | 0, _ => []
  | fuel + 1, layerID =>
    match lm layerID with
    | none => []
    | some layer =>
      if layer.parentLayerId ≠ -1 then
        naivePath lm fuel layer.parentLayerId ++ [layer.name]
      else [layer.name]

/-- The id chain visited by the naive parent walk, when it terminates
within the given bound. -/
def parentChain (lm : Int → Option MapServiceLayer) : Nat → Int → Option (List Int)
  | 0, _ => none
  | fuel + 1, layerID =>
    match lm layerID with
    | none => some [layerID]
    | some layer =>
      if layer.parentLayerId ≠ -1 then
        (parentChain lm fuel layer.parentLayerId).map (fun c => layerID :: c)
      else some [layerID]

theorem lookupHier_setHier (m : List (Int × List String)) (k j : Int) (v : List String) :
    lookupHier (setHier m k v) j = if j = k then some v else lookupHier m j := by
  induction m with
  | nil =>
    simp only [setHier, lookupHier]
    by_cases h : j = k
    · rw [if_pos h.symm, if_pos h]
    · rw [if_neg (fun hh => h hh.symm), if_neg h]
  | cons kv rest ih =>
    obtain ⟨k2, v2⟩ := kv
    simp only [setHier]
    by_cases h2 : k2 = k
    · subst h2
      simp only [if_pos rfl, lookupHier]
      by_cases h : j = k2
      · rw [if_pos h.symm, if_pos h]
      · rw [if_neg (fun hh => h hh.symm), if_neg h,
          if_neg (fun hh => h hh.symm)]
    · rw [if_neg h2]
      simp only [lookupHier]
      by_cases h : k2 = j
      · rw [if_pos h, if_neg (fun hh => h2 (h.trans hh)), if_pos h]
      · rw [if_neg h, if_neg h, ih]

theorem naivePath_stable (lm : Int → Option MapServiceLayer) :
    ∀ (fuel fuel2 : Nat) (layerID : Int) (c : List Int),
      parentChain lm fuel layerID = some c → fuel ≤ fuel2 →
      naivePath lm fuel2 layerID = naivePath lm fuel layerID := by
  intro fuel
  induction fuel with
  | zero =>
    intro fuel2 id c hc _
    cases hc
  | succ n ih =>
    intro fuel2 id c hc hle
    obtain ⟨m, rfl⟩ : ∃ m, fuel2 = m + 1 := ⟨fuel2 - 1, by omega⟩
    rw [parentChain] at hc
    simp only [naivePath]
    cases hlm : lm id with
    | none => rfl
    | some layer =>
      rw [hlm] at hc
      simp only at hc ⊢
      by_cases hp : layer.parentLayerId ≠ -1
      · rw [if_pos hp] at hc
        rw [if_pos hp, if_pos hp]
        cases hcc : parentChain lm n layer.parentLayerId with
        | none => rw [hcc] at hc; cases hc
        | some c2 =>
          have h1 := ih m layer.parentLayerId c2 hcc (by omega)
          rw [h1]
      · rw [if_neg hp, if_neg hp]

theorem buildPath_correct (lm : Int → Option MapServiceLayer) (F : Nat) :
    ∀ (fuel : Nat), fuel ≤ F →
      ∀ (memo : List (Int × List String)) (layerID : Int) (c : List Int),
        parentChain lm fuel layerID = some c → c.Nodup →
        (∀ x ∈ c, ∀ p, lookupHier memo x = some p → p = naivePath lm F x) →
        (buildPath lm fuel memo layerID).1 = naivePath lm F layerID ∧
        (∀ j p, lookupHier (buildPath lm fuel memo layerID).2 j = some p →
          lookupHier memo j = some p ∨ p = naivePath lm F j) := by
  intro fuel
  induction fuel with
  | zero =>
    intro _ memo id c hc
    cases hc
  | succ n ih =>
    intro hle memo id c hc hnd hpre
    obtain ⟨m, hF⟩ : ∃ m, F = m + 1 := ⟨F - 1, by omega⟩
    rw [parentChain] at hc
    simp only [buildPath]
    cases hmemo : lookupHier memo id with
    | some p0 =>
      have hidc : id ∈ c := by
        cases hlm : lm id with
        | none =>
          rw [hlm] at hc
          simp only at hc
          obtain rfl := Option.some.inj hc
          exact List.mem_singleton.mpr rfl
        | some layer =>
          rw [hlm] at hc
          simp only at hc
          by_cases hp : layer.parentLayerId ≠ -1
          · rw [if_pos hp] at hc
            cases hcc : parentChain lm n layer.parentLayerId with
            | none => rw [hcc] at hc; cases hc
            | some c2 =>
              rw [hcc] at hc
              simp only [Option.map] at hc
              obtain rfl := Option.some.inj hc
              exact List.mem_cons_self _ _
          · rw [if_neg hp] at hc
            obtain rfl := Option.some.inj hc
            exact List.mem_singleton.mpr rfl
      refine ⟨hpre id hidc p0 hmemo, ?_⟩
      intro j q hj
      exact Or.inl hj
    | none =>
      cases hlm : lm id with
      | none =>
        constructor
        · rw [hF, naivePath, hlm]
        · intro j q hj
          exact Or.inl hj
      | some layer =>
        rw [hlm] at hc
        simp only at hc ⊢
        by_cases hp : layer.parentLayerId ≠ -1
        · rw [if_pos hp] at hc
          rw [if_pos hp]
          cases hcc : parentChain lm n layer.parentLayerId with
          | none => rw [hcc] at hc; cases hc
          | some c2 =>
            rw [hcc] at hc
            simp only [Option.map] at hc
            obtain rfl := Option.some.inj hc
            have hid2 : id ∉ c2 := (List.nodup_cons.mp hnd).1
            have hnd2 : c2.Nodup := (List.nodup_cons.mp hnd).2
            have hpre2 : ∀ x ∈ c2, ∀ p,
                lookupHier (setHier memo id []) x = some p → p = naivePath lm F x := by
              intro x hx p hxp
              rw [lookupHier_setHier] at hxp
              rw [if_neg (fun hh : x = id => hid2 (hh ▸ hx))] at hxp
              exact hpre x (List.mem_cons_of_mem _ hx) p hxp
            obtain ⟨hres, hpost⟩ := ih (by omega) (setHier memo id [])
              layer.parentLayerId c2 hcc hnd2 hpre2
            have hnaive : naivePath lm F id =
                naivePath lm F layer.parentLayerId ++ [layer.name] := by
              rw [hF, naivePath, hlm]
              simp only [if_pos hp]
              congr 1
              have h1 := naivePath_stable lm n m layer.parentLayerId c2 hcc (by omega)
              have h2 := naivePath_stable lm n (m + 1) layer.parentLayerId c2 hcc (by omega)
              rw [h1, h2]
            constructor
            · rw [hres, hnaive]
            · intro j q hj
              rw [lookupHier_setHier] at hj
              by_cases hji : j = id
              · rw [if_pos hji] at hj
                right
                obtain rfl := Option.some.inj hj
                rw [hji, hres, hnaive]
              · rw [if_neg hji] at hj
                rcases hpost j q hj with hold | hnew
                · rw [lookupHier_setHier, if_neg hji] at hold
                  exact Or.inl hold
                · exact Or.inr hnew
        · rw [if_neg hp] at hc
          rw [if_neg hp]
          obtain rfl := Option.some.inj hc
          have hnaive : naivePath lm F id = [layer.name] := by
            rw [hF, naivePath, hlm]
            simp only [if_neg hp]
          constructor
          · rw [hnaive]
          · intro j q hj
            rw [lookupHier_setHier] at hj
            by_cases hji : j = id
            · rw [if_pos hji] at hj
              right
              obtain rfl := Option.some.inj hj
              rw [hji, hnaive]
            · rw [if_neg hji] at hj
              rw [lookupHier_setHier, if_neg hji] at hj
              exact Or.inl hj

theorem fetchServiceLayersMS_foldl (serviceURL : String)
    (lm : Int → Option MapServiceLayer) (F : Nat) (suffix : List MapServiceLayer) :
    ∀ (acc : List AvailableLayerInfo × List (Int × List String)),
      (∀ j p, lookupHier acc.2 j = some p → p = naivePath lm F j) →
      (∀ l ∈ suffix, ∃ c, parentChain lm F l.id = some c ∧ c.Nodup) →
      (suffix.foldl
        (fun (acc : List AvailableLayerInfo × List (Int × List String)) layer =>
          if layer.ltype = "Feature Layer" then
            let r := buildPath lm F acc.2 layer.id
            (acc.1 ++ [{ id := toString layer.id, name := layer.name, ltype := layer.ltype,
                         geometryType := layer.geometryType, serviceURL := serviceURL,
                         parentPath := r.1.dropLast, isFeatureLayer := true }], r.2)
          else acc) acc).1 =
      acc.1 ++ (suffix.filter (fun l => l.ltype = "Feature Layer")).map
        (fun l => { id := toString l.id, name := l.name, ltype := l.ltype,
                    geometryType := l.geometryType, serviceURL := serviceURL,
                    parentPath := (naivePath lm F l.id).dropLast,
                    isFeatureLayer := true }) := by
  induction suffix with
  | nil =>
    intro acc _ _
    simp
  | cons l rest ih =>
    intro acc hmemo hch
    rw [List.foldl_cons, List.filter_cons]
    by_cases hFL : l.ltype = "Feature Layer"
    · obtain ⟨c, hc, hnd⟩ := hch l (List.mem_cons_self _ _)
      obtain ⟨hres, hpost⟩ := buildPath_correct lm F F (le_refl F) acc.2 l.id c hc hnd
        (fun x _ p hx => hmemo x p hx)
      have hmemo2 : ∀ j p,
          lookupHier (buildPath lm F acc.2 l.id).2 j = some p → p = naivePath lm F j := by
        intro j p hj
        rcases hpost j p hj with hold | hnew
        · exact hmemo j p hold
        · exact hnew
      have hch2 : ∀ x ∈ rest, ∃ c, parentChain lm F x.id = some c ∧ c.Nodup :=
        fun x hx => hch x (List.mem_cons_of_mem _ hx)
      rw [if_pos hFL]
      rw [ih _ hmemo2 hch2]
      simp [hFL, hres, List.append_assoc]
    · rw [if_neg hFL]
      rw [ih _ hmemo (fun x hx => hch x (List.mem_cons_of_mem _ hx))]
      simp [hFL]

/-- C5: MapServer discovery yields exactly one descriptor per declared
"Feature Layer" entry and none for a group or other entry, in declaration
order; each descriptor carries the layer's id, name, type and geometry
type, and its parent-path breadcrumb is the ancestor-name chain obtained
by following parent pointers to the -1 sentinel, without the layer's own
name.  The hypothesis says each declared layer's parent chain reaches the
sentinel (or a missing id) without repeating ids: the hierarchy shape the
claim describes. -/
theorem c5_mapserver_discovery (serviceURL : String) (md : MapServiceMetadata)
    (herr : md.errorMsg = none)
    (hch : ∀ l ∈ md.layers, ∃ c,
      parentChain (layerMapOf md.layers) (md.layers.length + 1) l.id = some c ∧ c.Nodup) :
    fetchServiceLayersMS serviceURL md =
      Except.ok ((md.layers.filter (fun l => l.ltype = "Feature Layer")).map
        (fun l => { id := toString l.id, name := l.name, ltype := l.ltype,
                    geometryType := l.geometryType, serviceURL := serviceURL,
                    parentPath :=
                      (naivePath (layerMapOf md.layers) (md.layers.length + 1) l.id).dropLast,
                    isFeatureLayer := true })) ∧
    (∀ res, fetchServiceLayersMS serviceURL md = Except.ok res →
      res.length = (md.layers.filter (fun l => l.ltype = "Feature Layer")).length) := by
  have hmain : fetchServiceLayersMS serviceURL md =
      Except.ok ((md.layers.filter (fun l => l.ltype = "Feature Layer")).map
        (fun l => { id := toString l.id, name := l.name, ltype := l.ltype,
                    geometryType := l.geometryType, serviceURL := serviceURL,
                    parentPath :=
                      (naivePath (layerMapOf md.layers) (md.layers.length + 1) l.id).dropLast,
                    isFeatureLayer := true })) := by
    rw [fetchServiceLayersMS, herr]
    simp only []
    congr 1
    have h := fetchServiceLayersMS_foldl serviceURL (layerMapOf md.layers)
      (md.layers.length + 1) md.layers ([], [])
      (by intro j p hj; cases hj) hch
    simpa using h
  refine ⟨hmain, ?_⟩
  intro res hres
  rw [hmain] at hres
  obtain rfl := (Except.ok.inj hres).symm
  rw [List.length_map]

/-- The MapServer metadata used by the C5 witness: one group entry and two
leaf "Feature Layer" entries pointing at it. -/
def c5ExampleMetadata : MapServiceMetadata :=
  { layers :=
      [{ id := 0, name := "Group", ltype := "Group Layer", geometryType := "",
         parentLayerId := -1 },
       { id := 1, name := "Roads", ltype := "Feature Layer",
         geometryType := "esriGeometryPolyline", parentLayerId := 0 },
       { id := 2, name := "Rivers", ltype := "Feature Layer",
         geometryType := "esriGeometryPolyline", parentLayerId := 0 }],
    errorMsg := none }

/-- C5 witness: a map service with one group entry and two Feature Layer
entries yields exactly the two leaf descriptors, with the group's name as
their breadcrumb. -/
theorem c5_witness :
    fetchServiceLayersMS "https://h/M/MapServer" c5ExampleMetadata =
      Except.ok
        [{ id := "1", name := "Roads", ltype := "Feature Layer",
           geometryType := "esriGeometryPolyline", serviceURL := "https://h/M/MapServer",
           parentPath := ["Group"], isFeatureLayer := true },
         { id := "2", name := "Rivers", ltype := "Feature Layer",
           geometryType := "esriGeometryPolyline", serviceURL := "https://h/M/MapServer",
           parentPath := ["Group"], isFeatureLayer := true }] := by
  have h := (c5_mapserver_discovery "https://h/M/MapServer" c5ExampleMetadata rfl
    (by
      intro l hl
      fin_cases hl
      · exact ⟨[0], rfl, by decide⟩
      · exact ⟨[1, 0], rfl, by decide⟩
      · exact ⟨[2, 0], rfl, by decide⟩)).1
  rw [h]
  rfl

/-! ## Claim C4: a model of the parts of net/url used by the normalizer -/

/-- Split at the first occurrence of a character, dropping it (net/url's
`split` helper with cutc = true); `none` when the character is absent. -/
def cutFirst (sep : Char) : List Char → Option (List Char × List Char)
  | [] => none
  | c :: rest =>
    if c = sep then some ([], rest)
    else (cutFirst sep rest).map (fun pr => (c :: pr.1, pr.2))

/-- The longest prefix before a separator together with the rest starting
at the separator (net/url keeps the slash when splitting the authority). -/
def spanUntil (sep : Char) : List Char → List Char × List Char
  | [] => ([], [])
  | c :: rest =>
    if c = sep then ([], c :: rest)
    else
      let r := spanUntil sep rest
      (c :: r.1, r.2)

/-- The result of net/url's `getScheme`. -/
inductive SchemeResult where
  | err
  | noScheme
  | found (scheme rest : List Char)
deriving DecidableEq

/-- net/url's `getScheme` scanner: letters continue; digits and `+ - .`
continue except in first position (no scheme); a colon in first position
is the "missing protocol scheme" error, later it ends the scheme; any
other character means no scheme.  The lowering of the scheme done by
`parse` right after is folded in here. -/
def getSchemeAux (seen : List Char) : List Char → SchemeResult
  | [] => .noScheme
  | c :: rest =>
    if c.isAlpha then getSchemeAux (seen ++ [c]) rest
    else if c.isDigit || c = '+' || c = '-' || c = '.' then
      if seen.isEmpty then .noScheme else getSchemeAux (seen ++ [c]) rest
    else if c = ':' then
      if seen.isEmpty then .err else .found (seen.map Char.toLower) rest
    else .noScheme

/-- A parsed URL (net/url's `URL` struct restricted to the fields the
normalizer touches; `User` is not modelled). -/
structure URLRec where
  scheme : List Char
  opq : List Char
  host : List Char
  path : List Char
  omitHost : Bool
  forceQuery : Bool
  rawQuery : List Char
  fragment : List Char
deriving DecidableEq

/-- The body of net/url's `parse` (viaRequest = false) on the pre-fragment
input.  Control-character rejection and host validation are elided (both
only produce parse errors, on which the normalizer returns its input
unchanged), and percent-escape decoding of host, path and fragment is
elided, so those components are carried verbatim. -/
def parseQuerySplit (rest0 : List Char) : List Char × Bool × List Char :=
  if rest0.getLast? = some '?' ∧ rest0.dropLast.all (fun c => c ≠ '?') then
    (rest0.dropLast, true, ([] : List Char))
  else
    match cutFirst '?' rest0 with
    | some (before, after) => (before, false, after)
    | none => (rest0, false, [])

/-- The scheme-independent part of `parse`: query splitting and the
opaque/authority case analysis. -/
def parseRest (scheme rest0 : List Char) : Option URLRec :=
  let rest := (parseQuerySplit rest0).1
  let forceQuery := (parseQuerySplit rest0).2.1
  let rawQuery := (parseQuerySplit rest0).2.2
  if rest.head? ≠ some '/' then
        if scheme ≠ [] then
          some { scheme := scheme, opq := rest, host := [], path := [], omitHost := false,
                 forceQuery := forceQuery, rawQuery := rawQuery, fragment := [] }
        else
          let seg := (spanUntil '/' rest).1
          if seg.contains ':' then none
          else
            some { scheme := scheme, opq := [], host := [], path := rest, omitHost := false,
                   forceQuery := forceQuery, rawQuery := rawQuery, fragment := [] }
      else
        if (rest.drop 1).head? = some '/' then
          if scheme ≠ [] ∨ ¬((rest.drop 2).head? = some '/') then
            let r := spanUntil '/' (rest.drop 2)
            some { scheme := scheme, opq := [], host := r.1, path := r.2, omitHost := false,
                   forceQuery := forceQuery, rawQuery := rawQuery, fragment := [] }
          else
            some { scheme := scheme, opq := [], host := [], path := rest, omitHost := false,
                   forceQuery := forceQuery, rawQuery := rawQuery, fragment := [] }
        else
          some { scheme := scheme, opq := [], host := [], path := rest,
                 omitHost := decide (scheme ≠ []), forceQuery := forceQuery,
                 rawQuery := rawQuery, fragment := [] }

def parseCore (u : List Char) : Option URLRec :=
  if u = ['*'] then
    some { scheme := [], opq := [], host := [], path := ['*'], omitHost := false,
           forceQuery := false, rawQuery := [], fragment := [] }
  else
    match getSchemeAux [] u with
    | .err => none
    | .noScheme => parseRest [] u
    | .found sch r => parseRest sch r

/-- net/url's `Parse`: the fragment is cut at the first `#` before the
core parse and carried verbatim. -/
def urlParse (s : List Char) : Option URLRec :=
  match cutFirst '#' s with
  | some (before, frag) => (parseCore before).map (fun u => { u with fragment := frag })
  | none => parseCore s

/-- `URL.String` on the model (escaping elided, matching the verbatim
components of `parseCore`). -/
def URLRec.toStr (u : URLRec) : List Char :=
  (if u.scheme ≠ [] then u.scheme ++ [':'] else []) ++
  (if u.opq ≠ [] then u.opq
   else
    (if (u.scheme ≠ [] ∨ u.host ≠ []) ∧ ¬(u.omitHost ∧ u.host = []) ∧
        (u.host ≠ [] ∨ u.path ≠ []) then
       '/' :: '/' :: u.host
     else []) ++
    (if u.path ≠ [] ∧ u.path.head? ≠ some '/' ∧ u.host ≠ [] then ['/'] else []) ++
    (if u.scheme = [] ∧
        ¬((u.scheme ≠ [] ∨ u.host ≠ []) ∧ ¬(u.omitHost ∧ u.host = []) ∧
          (u.host ≠ [] ∨ u.path ≠ [])) ∧
        ((spanUntil '/' u.path).1.contains ':') then
       '.' :: ['/']
     else []) ++
    u.path) ++
  (if u.forceQuery ∨ u.rawQuery ≠ [] then '?' :: u.rawQuery else []) ++
  (if u.fragment ≠ [] then '#' :: u.fragment else [])

theorem cutFirst_of_age {sep : Char} : ∀ {l : List Char}, sep ∉ l → cutFirst sep l = none := by
  intro l
  induction l with
  | nil => intro _; rfl
  | cons c rest ih =>
    intro h
    rw [cutFirst]
    rw [if_neg (fun hh : c = sep => h (hh ▸ List.mem_cons_self c rest))]
    rw [ih (fun hh => h (List.mem_cons_of_mem _ hh))]
    rfl

theorem cutFirst_append {sep : Char} : ∀ {l1 : List Char} (l2 : List Char), sep ∉ l1 →
    cutFirst sep (l1 ++ sep :: l2) = some (l1, l2) := by
  intro l1
  induction l1 with
  | nil =>
    intro l2 _
    simp [cutFirst]
  | cons c rest ih =>
    intro l2 h
    rw [List.cons_append, cutFirst]
    rw [if_neg (fun hh : c = sep => h (hh ▸ List.mem_cons_self c rest))]
    rw [ih l2 (fun hh => h (List.mem_cons_of_mem _ hh))]
    rfl

theorem spanUntil_no_sep {sep : Char} : ∀ {l : List Char}, sep ∉ l →
    spanUntil sep l = (l, []) := by
  intro l
  induction l with
  | nil => intro _; rfl
  | cons c rest ih =>
    intro h
    rw [spanUntil]
    rw [if_neg (fun hh : c = sep => h (hh ▸ List.mem_cons_self c rest))]
    rw [ih (fun hh => h (List.mem_cons_of_mem _ hh))]

theorem spanUntil_append {sep : Char} : ∀ {l1 : List Char} (l2 : List Char), sep ∉ l1 →
    spanUntil sep (l1 ++ sep :: l2) = (l1, sep :: l2) := by
  intro l1
  induction l1 with
  | nil =>
    intro l2 _
    simp [spanUntil]
  | cons c rest ih =>
    intro l2 h
    rw [List.cons_append, spanUntil]
    rw [if_neg (fun hh : c = sep => h (hh ▸ List.mem_cons_self c rest))]
    rw [ih l2 (fun hh => h (List.mem_cons_of_mem _ hh))]

theorem getSchemeAux_alpha (rest : List Char) :
    ∀ (sch : List Char) (seen : List Char), (∀ c ∈ sch, c.isAlpha) →
      (seen.isEmpty = false ∨ sch ≠ []) →
      getSchemeAux seen (sch ++ ':' :: rest) =
        .found ((seen ++ sch).map Char.toLower) rest := by
  intro sch
  induction sch with
  | nil =>
    intro seen _ hne
    have hsne : seen.isEmpty = false := by
      rcases hne with h | h
      · exact h
      · exact absurd rfl h
    rw [List.nil_append, getSchemeAux]
    rw [if_neg (by decide), if_neg (by decide), if_pos rfl, if_neg (by simp [hsne])]
    simp
  | cons c sch2 ih =>
    intro seen halpha _
    rw [List.cons_append, getSchemeAux, if_pos (halpha c (List.mem_cons_self _ _))]
    rw [ih (seen ++ [c]) (fun x hx => halpha x (List.mem_cons_of_mem _ hx)) (Or.inl (by simp))]
    rw [List.append_assoc]
    rfl

/-- The unreserved characters that `QueryEscape` leaves alone. -/
def isUnreserved (c : Char) : Bool :=
  c.isAlphanum || c = '-' || c = '_' || c = '.' || c = '~'

/-- Upper-case hexadecimal digit of a value below 16. -/
def hexDigitOf (n : Nat) : Char :=
  if n < 10 then Char.ofNat (48 + n) else Char.ofNat (55 + n)

/-- Hexadecimal value of a digit character (either case), as in net/url's
`unhex`. -/
def hexValOf (c : Char) : Option Nat :=
  if '0' ≤ c ∧ c ≤ '9' then some (c.toNat - 48)
  else if 'A' ≤ c ∧ c ≤ 'F' then some (c.toNat - 55)
  else if 'a' ≤ c ∧ c ≤ 'f' then some (c.toNat - 87)
  else none

/-- `QueryEscape` of one character: space becomes `+`, unreserved
characters stay, other ASCII characters become `%XX`; the byte-level
UTF-8 percent-encoding of non-ASCII runes is elided (those characters
pass through, and `QueryUnescape` leaves them untouched too). -/
def qEscapeChar (c : Char) : List Char :=
  if c = ' ' then ['+']
  else if isUnreserved c then [c]
  else if c.toNat < 256 then ['%', hexDigitOf (c.toNat / 16), hexDigitOf (c.toNat % 16)]
  else [c]

/-- `QueryEscape`. -/
def qEscape (s : List Char) : List Char := s.flatMap qEscapeChar

/-- `QueryUnescape`: `%XX` decodes, `+` becomes a space, a stray `%`
fails. -/
def qUnescape : List Char → Option (List Char)
  | [] => some []
  | c :: rest =>
    if c = '%' then
      match rest with
      | a :: b :: rest2 =>
        match hexValOf a, hexValOf b with
        | some x, some y => (qUnescape rest2).map (fun r => Char.ofNat (16 * x + y) :: r)
        | _, _ => none
      | _ => none
    else if c = '+' then (qUnescape rest).map (fun r => ' ' :: r)
    else (qUnescape rest).map (fun r => c :: r)

/-- `strings.Split` on a one-character separator (boundary empty pieces
are produced, as in Go). -/
def splitSep (sep : Char) : List Char → List (List Char)
  | [] => [[]]
  | c :: rest =>
    let r := splitSep sep rest
    if c = sep then [] :: r
    else
      match r with
      | h :: t => (c :: h) :: t
      | [] => [[c]]

/-- Split a raw query on `&` (boundary empty pairs are produced and later
skipped, as in `ParseQuery`). -/
def splitAmp : List Char → List (List Char) := splitSep '&'

/-- One `ParseQuery` pair: pairs containing `;` and empty pairs are
skipped, the pair is cut at the first `=`, both sides are unescaped (a
failing unescape skips the pair). -/
def parsePair (pair : List Char) : Option (List Char × List Char) :=
  if pair.contains ';' then none
  else if pair = [] then none
  else
    let kv := match cutFirst '=' pair with
      | some kv => kv
      | none => (pair, [])
    match qUnescape kv.1, qUnescape kv.2 with
    | some k2, some v2 => some (k2, v2)
    | _, _ => none

/-- Add one pair to a `url.Values` association list (`m[key] =
append(m[key], value)`); Go's map is modelled as a list of groups in
first-appearance order, which `Encode`'s key sort makes irrelevant. -/
def valuesAdd : List (List Char × List (List Char)) → List Char → List Char →
    List (List Char × List (List Char))
  | [], k, v => [(k, [v])]
  | (k2, vs2) :: rest, k, v =>
    if k2 = k then (k2, vs2 ++ [v]) :: rest else (k2, vs2) :: valuesAdd rest k v

/-- `ParseQuery` into grouped values. -/
def parseQueryList (q : List Char) : List (List Char × List (List Char)) :=
  (splitAmp q).foldl (fun acc pair =>
    match parsePair pair with
    | some kv => valuesAdd acc kv.1 kv.2
    | none => acc) []

/-- `Values.Del`. -/
def valuesDel (vs : List (List Char × List (List Char))) (k : List Char) :
    List (List Char × List (List Char)) :=
  vs.filter (fun kv => kv.1 ≠ k)

/-- Key order used by `Encode`'s `sort.Strings` on the model. -/
def keyLE (a b : List Char × List (List Char)) : Prop :=
  String.mk a.1 ≤ String.mk b.1

instance : DecidableRel keyLE := fun a b => inferInstanceAs (Decidable (_ ≤ _))

instance : IsTotal (List Char × List (List Char)) keyLE :=
  ⟨fun a b => le_total (String.mk a.1) (String.mk b.1)⟩

instance : IsTrans (List Char × List (List Char)) keyLE :=
  ⟨fun _ _ _ hab hbc => le_trans hab hbc⟩

/-- `strings.Join`-style join with a single separator character. -/
def joinSep (sep : Char) : List (List Char) → List Char
  | [] => []
  | [x] => x
  | x :: y :: rest => x ++ sep :: joinSep sep (y :: rest)

/-- `Values.Encode`: keys sorted, each value escaped as `k=v`, joined
with `&`. -/
def valuesEncode (vs : List (List Char × List (List Char))) : List Char :=
  joinSep '&'
    ((vs.insertionSort keyLE).flatMap (fun kv =>
      kv.2.map (fun v => qEscape kv.1 ++ '=' :: qEscape v)))

/-! The normalizer itself (part_007 963-1045). -/

/-- `strings.ToLower` (ASCII model; the tokens compared against are all
ASCII). -/
def toLowerList (s : List Char) : List Char := s.map Char.toLower

/-- `strings.Trim(s, "/")`. -/
def trimSlashes (s : List Char) : List Char :=
  ((s.dropWhile (fun c => c = '/')).reverse.dropWhile (fun c => c = '/')).reverse

/-- `strings.Split(s, "/")`. -/
def splitSlash : List Char → List (List Char) := splitSep '/'

/-- `strings.Join(parts, "/")`. -/
def joinSlash (parts : List (List Char)) : List Char := joinSep '/' parts

/-- The per-segment casing rule of the normalizer. -/
def caseSegList (part : List Char) : List Char :=
  let lower := toLowerList part
  if lower = "arcgis".data then "ArcGIS".data
  else if lower = "rest".data then "rest".data
  else if lower = "services".data then "services".data
  else if lower = "featureserver".data then "FeatureServer".data
  else if lower = "mapserver".data then "MapServer".data
  else part

/-- The whole path treatment of the service branch: trim, split, case
segments, rebuild honouring a leading slash, then the trailing-slash rule
keyed on whether the last segment is a base service token. -/
def pathTransform (p : List Char) : List Char :=
  let parts := (splitSlash (trimSlashes p)).map caseSegList
  let p1 := if p.head? = some '/' then '/' :: joinSlash parts else joinSlash parts
  let lastLower := toLowerList ((parts.getLast?).getD [])
  let isBase := lastLower = "mapserver".data ∨ lastLower = "featureserver".data
  if isBase then (if p1.getLast? = some '/' then p1 else p1 ++ ['/'])
  else (if p1.length > 1 ∧ p1.getLast? = some '/' then p1.dropLast else p1)

/-- The query treatment of the service branch: parse, delete the `f`
parameter, re-encode. -/
def queryTransform (raw : List Char) : List Char :=
  valuesEncode (valuesDel (parseQueryList raw) "f".data)

/-- The service-branch normalization of a parsed URL. -/
def serviceNorm (u : URLRec) : URLRec :=
  { u with path := pathTransform u.path, rawQuery := queryTransform u.rawQuery }

/-- Scheme defaulting (`if u.Scheme == "" { u.Scheme = "https" }`). -/
def ensureScheme (u : URLRec) : URLRec :=
  if u.scheme = [] then { u with scheme := "https".data } else u

/-- `normalizeArcGISURL` (part_007 963-1045) on character lists. -/
def normalizeCore (raw : List Char) : List Char :=
  let lower := toLowerList raw
  let isService := strContainsList "/rest/services".data lower ||
    strContainsList "/arcgis/rest".data lower
  let isItem := strContainsList "arcgis.com/home/item.html".data lower
  if isService = false ∧ isItem = false then
    match urlParse raw with
    | some u =>
      if u.scheme = [] ∧ raw.contains '.' ∧ ¬raw.contains ' ' ∧ raw.head? ≠ some '/' then
        "https://".data ++ raw
      else raw
    | none => raw
  else
    match urlParse raw with
    | none => raw
    | some u0 =>
      let u1 := ensureScheme u0
      if isService then (serviceNorm u1).toStr else u1.toStr

/-- `normalizeArcGISURL`. -/
def normalizeArcGISURL (s : String) : String := String.mk (normalizeCore s.data)

/-- `isValidHTTPURL` (part_007 1047-1054). -/
def isValidHTTPURL (s : String) : Bool :=
  match urlParse s.data with
  | none => false
  | some u => u.scheme = "http".data ∨ u.scheme = "https".data

/-- The service-URL classifier of `normalizeArcGISURL` (part_007 965). -/
def isArcGISServiceURL (s : String) : Bool :=
  strContainsList "/rest/services".data (toLowerList s.data) ||
    strContainsList "/arcgis/rest".data (toLowerList s.data)

/-! Elementary facts about the split, join and trim helpers. -/

theorem getLast?_cons_ne {α : Type} (c : α) (l : List α) (h : l ≠ []) :
    (c :: l).getLast? = l.getLast? := by
  rw [show c :: l = [c] ++ l from rfl, List.getLast?_append_of_ne_nil [c] h]

theorem splitSep_ne_nil (sep : Char) : ∀ (l : List Char), splitSep sep l ≠ [] := by
  intro l
  induction l with
  | nil => simp [splitSep]
  | cons c rest ih =>
    simp only [splitSep]
    by_cases h : c = sep
    · simp [h]
    · rw [if_neg h]
      cases hr : splitSep sep rest <;> simp

theorem splitSep_no_sep (sep : Char) : ∀ (l : List Char), ∀ seg ∈ splitSep sep l, sep ∉ seg := by
  intro l
  induction l with
  | nil =>
    intro seg hs
    rw [show splitSep sep [] = [[]] from rfl] at hs
    rw [List.mem_singleton.mp hs]
    exact List.not_mem_nil sep
  | cons c rest ih =>
    intro seg hs
    simp only [splitSep] at hs
    by_cases h : c = sep
    · rw [if_pos h] at hs
      rcases List.mem_cons.mp hs with h1 | h1
      · rw [h1]; exact List.not_mem_nil sep
      · exact ih seg h1
    · rw [if_neg h] at hs
      cases hr : splitSep sep rest with
      | nil => exact absurd hr (splitSep_ne_nil sep rest)
      | cons hd tl =>
        rw [hr] at hs
        rcases List.mem_cons.mp hs with h1 | h1
        · rw [h1]
          intro hmem
          rcases List.mem_cons.mp hmem with h2 | h2
          · exact h h2.symm
          · exact ih hd (hr ▸ List.mem_cons_self hd tl) h2
        · exact ih seg (hr ▸ List.mem_cons_of_mem hd h1)

theorem splitSep_subset (sep : Char) : ∀ (l : List Char), ∀ seg ∈ splitSep sep l,
    ∀ c ∈ seg, c ∈ l := by
  intro l
  induction l with
  | nil =>
    intro seg hs
    rw [show splitSep sep [] = [[]] from rfl] at hs
    rw [List.mem_singleton.mp hs]
    intro c hc
    cases hc
  | cons a rest ih =>
    intro seg hs c hc
    simp only [splitSep] at hs
    by_cases h : a = sep
    · rw [if_pos h] at hs
      rcases List.mem_cons.mp hs with h1 | h1
      · rw [h1] at hc; cases hc
      · exact List.mem_cons_of_mem a (ih seg h1 c hc)
    · rw [if_neg h] at hs
      cases hr : splitSep sep rest with
      | nil => exact absurd hr (splitSep_ne_nil sep rest)
      | cons hd tl =>
        rw [hr] at hs
        rcases List.mem_cons.mp hs with h1 | h1
        · rw [h1] at hc
          rcases List.mem_cons.mp hc with h2 | h2
          · rw [h2]; exact List.mem_cons_self a rest
          · exact List.mem_cons_of_mem a (ih hd (hr ▸ List.mem_cons_self hd tl) c h2)
        · exact List.mem_cons_of_mem a (ih seg (hr ▸ List.mem_cons_of_mem hd h1) c hc)

theorem splitSep_of_not_mem (sep : Char) : ∀ (l : List Char), sep ∉ l →
    splitSep sep l = [l] := by
  intro l
  induction l with
  | nil => intro _; rfl
  | cons c rest ih =>
    intro h
    simp only [splitSep]
    rw [if_neg (fun hh : c = sep => h (hh ▸ List.mem_cons_self c rest))]
    rw [ih (fun hh => h (List.mem_cons_of_mem _ hh))]

theorem splitSep_append (sep : Char) : ∀ (l1 : List Char) (l2 : List Char), sep ∉ l1 →
    splitSep sep (l1 ++ sep :: l2) = l1 :: splitSep sep l2 := by
  intro l1
  induction l1 with
  | nil =>
    intro l2 _
    rw [List.nil_append]
    simp only [splitSep]
    rw [if_pos trivial]
  | cons c rest ih =>
    intro l2 h
    rw [List.cons_append]
    simp only [splitSep]
    rw [if_neg (fun hh : c = sep => h (hh ▸ List.mem_cons_self c rest))]
    rw [ih l2 (fun hh => h (List.mem_cons_of_mem _ hh))]

theorem joinSep_cons (sep : Char) (y : List Char) (t : List (List Char)) (ht : t ≠ []) :
    joinSep sep (y :: t) = y ++ sep :: joinSep sep t := by
  cases t with
  | nil => exact absurd rfl ht
  | cons z r => rfl

theorem splitSep_joinSep (sep : Char) : ∀ (parts : List (List Char)), parts ≠ [] →
    (∀ seg ∈ parts, sep ∉ seg) → splitSep sep (joinSep sep parts) = parts := by
  intro parts
  induction parts with
  | nil => intro h _; exact absurd rfl h
  | cons x t ih =>
    intro _ hsegs
    cases t with
    | nil =>
      rw [show joinSep sep [x] = x from rfl]
      exact splitSep_of_not_mem sep x (hsegs x (List.mem_cons_self x []))
    | cons y r =>
      rw [joinSep_cons sep x (y :: r) (by simp)]
      rw [splitSep_append sep x (joinSep sep (y :: r)) (hsegs x (List.mem_cons_self _ _))]
      rw [ih (by simp) (fun seg hh => hsegs seg (List.mem_cons_of_mem _ hh))]

theorem joinSep_head (sep : Char) (x : List Char) (t : List (List Char)) (hx : x ≠ []) :
    (joinSep sep (x :: t)).head? = x.head? := by
  cases t with
  | nil => rfl
  | cons y r =>
    rw [joinSep_cons sep x (y :: r) (by simp)]
    cases x with
    | nil => exact absurd rfl hx
    | cons c cs => rfl

theorem joinSep_getLast (sep : Char) : ∀ (parts : List (List Char)) (x : List Char), x ≠ [] →
    (joinSep sep (parts ++ [x])).getLast? = x.getLast? := by
  intro parts
  induction parts with
  | nil => intro x _; rfl
  | cons y rest ih =>
    intro x hx
    rw [List.cons_append, joinSep_cons sep y (rest ++ [x]) (by simp)]
    rw [List.getLast?_append_of_ne_nil y (by simp : sep :: joinSep sep (rest ++ [x]) ≠ [])]
    have hj := ih x hx
    have hne : joinSep sep (rest ++ [x]) ≠ [] := by
      intro h0
      rw [h0] at hj
      have hx2 : x.getLast?.isSome := List.getLast?_isSome.mpr hx
      rw [← hj] at hx2
      simp at hx2
    rw [getLast?_cons_ne sep _ hne, hj]

theorem mem_joinSep (sep : Char) : ∀ (parts : List (List Char)) (c : Char),
    c ∈ joinSep sep parts → c = sep ∨ ∃ seg ∈ parts, c ∈ seg := by
  intro parts
  induction parts with
  | nil => intro c hc; cases hc
  | cons x t ih =>
    intro c hc
    cases t with
    | nil =>
      right
      exact ⟨x, List.mem_cons_self x [], hc⟩
    | cons y r =>
      rw [joinSep_cons sep x (y :: r) (by simp)] at hc
      rcases List.mem_append.mp hc with h | h
      · right; exact ⟨x, List.mem_cons_self _ _, h⟩
      · rcases List.mem_cons.mp h with h | h
        · left; exact h
        · rcases ih c h with h | ⟨seg, hs, hcs⟩
          · left; exact h
          · right; exact ⟨seg, List.mem_cons_of_mem _ hs, hcs⟩

theorem dropWhile_head_false (p : Char → Bool) : ∀ (l : List Char) (a : Char),
    (l.dropWhile p).head? = some a → p a = false := by
  intro l
  induction l with
  | nil => intro a h; cases h
  | cons c rest ih =>
    intro a h
    by_cases hc : p c
    · rw [List.dropWhile_cons_of_pos hc] at h
      exact ih a h
    · rw [List.dropWhile_cons_of_neg hc] at h
      rw [List.head?_cons] at h
      have ha := Option.some.inj h
      rw [← ha]
      exact Bool.eq_false_iff.mpr hc

theorem trimSlashes_subset (l : List Char) (c : Char) (hc : c ∈ trimSlashes l) : c ∈ l := by
  unfold trimSlashes at hc
  rw [List.mem_reverse] at hc
  have h1 := (List.dropWhile_sublist _).subset hc
  rw [List.mem_reverse] at h1
  exact (List.dropWhile_sublist _).subset h1

theorem trimSlashes_head (l : List Char) : (trimSlashes l).head? ≠ some '/' := by
  unfold trimSlashes
  intro h
  rw [List.head?_reverse] at h
  obtain ⟨t, ht⟩ := List.dropWhile_suffix
    (l := (l.dropWhile (fun c => c = '/')).reverse) (fun c => c = '/')
  have hne : ((l.dropWhile (fun c => c = '/')).reverse).dropWhile (fun c => c = '/') ≠ [] := by
    intro h0
    rw [h0] at h
    simp at h
  have hq1 : ((l.dropWhile (fun c => c = '/')).reverse).getLast? = some '/' := by
    rw [← ht, List.getLast?_append_of_ne_nil t hne, h]
  rw [List.getLast?_reverse] at hq1
  have hfalse := dropWhile_head_false _ l '/' hq1
  simp at hfalse

theorem trimSlashes_getLast (l : List Char) : (trimSlashes l).getLast? ≠ some '/' := by
  unfold trimSlashes
  intro h
  rw [List.getLast?_reverse] at h
  have hfalse := dropWhile_head_false _ _ '/' h
  simp at hfalse

theorem trimSlashes_cons_slash (l : List Char) : trimSlashes ('/' :: l) = trimSlashes l := by
  unfold trimSlashes
  rw [List.dropWhile_cons_of_pos (by decide)]

theorem trimSlashes_append_slash (l : List Char) : trimSlashes (l ++ ['/']) = trimSlashes l := by
  unfold trimSlashes
  rw [List.dropWhile_append]
  by_cases h : (l.dropWhile (fun c => c = '/')).isEmpty
  · rw [if_pos h]
    have h0 : l.dropWhile (fun c => c = '/') = [] := by
      rwa [List.isEmpty_iff] at h
    rw [h0]
    rfl
  · rw [if_neg h, List.reverse_append]
    rw [show (['/'] : List Char).reverse ++ (l.dropWhile (fun c => c = '/')).reverse =
      '/' :: (l.dropWhile (fun c => c = '/')).reverse from rfl]
    rw [List.dropWhile_cons_of_pos (by decide)]

theorem trimSlashes_of_clean (l : List Char) (h1 : l.head? ≠ some '/')
    (h2 : l.getLast? ≠ some '/') : trimSlashes l = l := by
  unfold trimSlashes
  have d1 : l.dropWhile (fun c => c = '/') = l := by
    cases l with
    | nil => rfl
    | cons c rest =>
      rw [List.dropWhile_cons_of_neg]
      simp only [decide_eq_true_eq]
      intro hc
      exact h1 (by simp [hc])
  rw [d1]
  have d2 : l.reverse.dropWhile (fun c => c = '/') = l.reverse := by
    cases hl : l.reverse with
    | nil => rfl
    | cons c rest =>
      rw [List.dropWhile_cons_of_neg]
      simp only [decide_eq_true_eq]
      intro hc
      have hhead : l.reverse.head? = some c := by rw [hl]; rfl
      rw [List.head?_reverse] at hhead
      exact h2 (by rw [hhead, hc])
  rw [d2, List.reverse_reverse]

theorem splitSep_head_ne (sep : Char) (l : List Char) (hl : l ≠ []) (hh : l.head? ≠ some sep) :
    ∃ s t, splitSep sep l = s :: t ∧ s ≠ [] := by
  cases l with
  | nil => exact absurd rfl hl
  | cons c rest =>
    have hc : c ≠ sep := fun h => hh (by simp [h])
    simp only [splitSep]
    rw [if_neg hc]
    cases hr : splitSep sep rest with
    | nil => exact absurd hr (splitSep_ne_nil sep rest)
    | cons h t =>
      exact ⟨c :: h, t, rfl, by simp⟩

theorem splitSep_getLast_ne (sep : Char) : ∀ (l : List Char), l ≠ [] →
    l.getLast? ≠ some sep → ∃ s, (splitSep sep l).getLast? = some s ∧ s ≠ [] := by
  intro l
  induction l with
  | nil => intro hl _; exact absurd rfl hl
  | cons c rest ih =>
    intro _ hh
    by_cases hr2 : rest = []
    · subst hr2
      have hc : c ≠ sep := fun h => hh (by simp [h])
      simp only [splitSep]
      rw [if_neg hc]
      exact ⟨[c], rfl, by simp⟩
    · have hlast : rest.getLast? ≠ some sep := by
        rw [← getLast?_cons_ne c rest hr2]
        exact hh
      obtain ⟨s, hs, hsne⟩ := ih hr2 hlast
      simp only [splitSep]
      by_cases hc : c = sep
      · rw [if_pos hc]
        refine ⟨s, ?_, hsne⟩
        rw [getLast?_cons_ne ([] : List Char) (splitSep sep rest) (splitSep_ne_nil sep rest)]
        exact hs
      · rw [if_neg hc]
        cases hsp : splitSep sep rest with
        | nil => exact absurd hsp (splitSep_ne_nil sep rest)
        | cons h t =>
          rw [hsp] at hs
          cases t with
          | nil =>
            refine ⟨c :: h, rfl, by simp⟩
          | cons h2 t2 =>
            refine ⟨s, ?_, hsne⟩
            rw [getLast?_cons_ne (c :: h) (h2 :: t2) (by simp)]
            rw [getLast?_cons_ne h (h2 :: t2) (by simp)] at hs
            exact hs

/-! Facts about the segment casing rule. -/

theorem caseSegList_nil : caseSegList [] = [] := by decide

theorem caseSegList_ne_nil (x : List Char) (hx : x ≠ []) : caseSegList x ≠ [] := by
  simp only [caseSegList]
  split_ifs <;> first | decide | exact hx

theorem caseSegList_no_slash (x : List Char) (hx : '/' ∉ x) : '/' ∉ caseSegList x := by
  simp only [caseSegList]
  split_ifs <;> first | decide | exact hx

theorem mem_caseSegList (x : List Char) (c : Char) (hc : c ∈ caseSegList x) :
    c ∈ x ∨ c.isAlpha = true := by
  revert hc
  simp only [caseSegList]
  split_ifs <;> intro hc
  · exact Or.inr ((by decide : ∀ d ∈ "ArcGIS".data, d.isAlpha = true) c hc)
  · exact Or.inr ((by decide : ∀ d ∈ "rest".data, d.isAlpha = true) c hc)
  · exact Or.inr ((by decide : ∀ d ∈ "services".data, d.isAlpha = true) c hc)
  · exact Or.inr ((by decide : ∀ d ∈ "FeatureServer".data, d.isAlpha = true) c hc)
  · exact Or.inr ((by decide : ∀ d ∈ "MapServer".data, d.isAlpha = true) c hc)
  · exact Or.inl hc

theorem caseSegList_idem (x : List Char) : caseSegList (caseSegList x) = caseSegList x := by
  by_cases h1 : toLowerList x = "arcgis".data
  · rw [show caseSegList x = "ArcGIS".data from by simp [caseSegList, h1]]
    decide
  · by_cases h2 : toLowerList x = "rest".data
    · rw [show caseSegList x = "rest".data from by simp [caseSegList, h1, h2]]
      decide
    · by_cases h3 : toLowerList x = "services".data
      · rw [show caseSegList x = "services".data from by simp [caseSegList, h1, h2, h3]]
        decide
      · by_cases h4 : toLowerList x = "featureserver".data
        · rw [show caseSegList x = "FeatureServer".data from by
            simp [caseSegList, h1, h2, h3, h4]]
          decide
        · by_cases h5 : toLowerList x = "mapserver".data
          · rw [show caseSegList x = "MapServer".data from by
              simp [caseSegList, h1, h2, h3, h4, h5]]
            decide
          · have hx : caseSegList x = x := by simp [caseSegList, h1, h2, h3, h4, h5]
            rw [hx, hx]

/-! Structure of the path transform. -/

/-- The cased segment list the service path rule computes. -/
def partsOf (p : List Char) : List (List Char) :=
  (splitSep '/' (trimSlashes p)).map caseSegList

/-- The slash join of the cased segments. -/
def pjoin (p : List Char) : List Char := joinSep '/' (partsOf p)

theorem pathTransform_eq (p : List Char) :
    pathTransform p =
      if toLowerList (((partsOf p).getLast?).getD []) = "mapserver".data ∨
         toLowerList (((partsOf p).getLast?).getD []) = "featureserver".data then
        (if (if p.head? = some '/' then '/' :: pjoin p else pjoin p).getLast? = some '/' then
          (if p.head? = some '/' then '/' :: pjoin p else pjoin p)
         else (if p.head? = some '/' then '/' :: pjoin p else pjoin p) ++ ['/'])
      else
        (if (if p.head? = some '/' then '/' :: pjoin p else pjoin p).length > 1 ∧
            (if p.head? = some '/' then '/' :: pjoin p else pjoin p).getLast? = some '/' then
          (if p.head? = some '/' then '/' :: pjoin p else pjoin p).dropLast
         else (if p.head? = some '/' then '/' :: pjoin p else pjoin p)) := rfl

theorem partsOf_ne_nil (p : List Char) : partsOf p ≠ [] := by
  unfold partsOf
  intro h
  rw [List.map_eq_nil] at h
  exact splitSep_ne_nil '/' (trimSlashes p) h

theorem partsOf_no_slash (p : List Char) : ∀ seg ∈ partsOf p, '/' ∉ seg := by
  intro seg hseg
  rcases List.mem_map.mp hseg with ⟨seg0, hseg0, rfl⟩
  exact caseSegList_no_slash seg0 (splitSep_no_sep '/' (trimSlashes p) seg0 hseg0)

theorem splitSep_pjoin (p : List Char) : splitSep '/' (pjoin p) = partsOf p :=
  splitSep_joinSep '/' (partsOf p) (partsOf_ne_nil p) (partsOf_no_slash p)

theorem pjoin_head (p : List Char) (ht : trimSlashes p ≠ []) :
    ∃ c0, (pjoin p).head? = some c0 ∧ c0 ≠ '/' := by
  obtain ⟨s0, t0, hsplit0, hs0ne⟩ :=
    splitSep_head_ne '/' (trimSlashes p) ht (trimSlashes_head p)
  unfold pjoin partsOf
  rw [hsplit0, List.map_cons]
  rw [joinSep_head '/' (caseSegList s0) _ (caseSegList_ne_nil s0 hs0ne)]
  cases hcs : caseSegList s0 with
  | nil => exact absurd hcs (caseSegList_ne_nil s0 hs0ne)
  | cons c0 cs =>
    refine ⟨c0, rfl, ?_⟩
    have hnos : '/' ∉ caseSegList s0 :=
      caseSegList_no_slash s0
        (splitSep_no_sep '/' (trimSlashes p) s0 (hsplit0 ▸ List.mem_cons_self s0 t0))
    rw [hcs] at hnos
    intro hc0
    subst hc0
    exact hnos (List.mem_cons_self _ _)

theorem pjoin_getLast (p : List Char) (ht : trimSlashes p ≠ []) :
    ∃ c1, (pjoin p).getLast? = some c1 ∧ c1 ≠ '/' := by
  obtain ⟨sl, hsl, hslne⟩ :=
    splitSep_getLast_ne '/' (trimSlashes p) ht (trimSlashes_getLast p)
  have hlast : (partsOf p).getLast? = some (caseSegList sl) := by
    unfold partsOf
    rw [List.getLast?_map, hsl]
    rfl
  obtain ⟨init, hinit⟩ := List.getLast?_eq_some_iff.mp hlast
  have hj : (pjoin p).getLast? = (caseSegList sl).getLast? := by
    unfold pjoin
    rw [hinit]
    exact joinSep_getLast '/' init (caseSegList sl) (caseSegList_ne_nil sl hslne)
  cases hcs : (caseSegList sl).getLast? with
  | none =>
    rw [List.getLast?_eq_none_iff] at hcs
    exact absurd hcs (caseSegList_ne_nil sl hslne)
  | some c1 =>
    refine ⟨c1, by rw [hj, hcs], ?_⟩
    have hnos : '/' ∉ caseSegList sl :=
      caseSegList_no_slash sl
        (splitSep_no_sep '/' (trimSlashes p) sl (List.mem_of_mem_getLast? hsl))
    intro hc1
    subst hc1
    exact hnos (List.mem_of_mem_getLast? hcs)

theorem pathTransform_slash (p : List Char) (hp : p.head? = some '/') :
    pathTransform p = ['/'] ∨
    (trimSlashes p ≠ [] ∧
      (pathTransform p = '/' :: pjoin p ∨ pathTransform p = ('/' :: pjoin p) ++ ['/'])) := by
  by_cases ht : trimSlashes p = []
  · left
    rw [pathTransform_eq, hp]
    unfold pjoin partsOf
    rw [ht]
    decide
  · right
    refine ⟨ht, ?_⟩
    obtain ⟨c1, hc1, hc1ne⟩ := pjoin_getLast p ht
    have hqne : pjoin p ≠ [] := by
      intro h0
      rw [h0] at hc1
      cases hc1
    have hql : (pjoin p).getLast? ≠ some '/' := by
      rw [hc1]
      intro h
      exact hc1ne (Option.some.inj h)
    have hcons : ('/' :: pjoin p).getLast? = (pjoin p).getLast? :=
      getLast?_cons_ne '/' (pjoin p) hqne
    rw [pathTransform_eq, hp, if_pos rfl]
    by_cases hbase : toLowerList (((partsOf p).getLast?).getD []) = "mapserver".data ∨
        toLowerList (((partsOf p).getLast?).getD []) = "featureserver".data
    · rw [if_pos hbase, if_neg (fun h => hql (hcons ▸ h))]
      right
      rfl
    · rw [if_neg hbase, if_neg (fun hand => hql (hcons ▸ hand.2))]
      left
      rfl

theorem pathTransform_nil : pathTransform [] = [] := by decide

theorem pathTransform_head (p : List Char) (hp : p.head? = some '/') :
    (pathTransform p).head? = some '/' := by
  rcases pathTransform_slash p hp with h | ⟨_, h | h⟩ <;> rw [h] <;> rfl

theorem pathTransform_no_dslash (p : List Char) (hp : p.head? = some '/') :
    ((pathTransform p).drop 1).head? ≠ some '/' := by
  rcases pathTransform_slash p hp with h | ⟨ht, hform⟩
  · rw [h]
    simp
  · obtain ⟨c0, hc0, hc0ne⟩ := pjoin_head p ht
    have hne : (pjoin p).head? ≠ some '/' := by
      rw [hc0]
      intro h
      exact hc0ne (Option.some.inj h)
    rcases hform with h | h
    · rw [h]
      simpa using hne
    · rw [h]
      rw [show ((('/' :: pjoin p) ++ ['/']).drop 1).head? = (pjoin p ++ ['/']).head? from rfl]
      cases hq : pjoin p with
      | nil =>
        rw [hq] at hc0
        cases hc0
      | cons a t =>
        rw [hq] at hne
        simpa using hne

theorem pathTransform_congr (p1 p2 : List Char)
    (h1 : p1.head? = some '/') (h2 : p2.head? = some '/')
    (hparts : partsOf p1 = partsOf p2) :
    pathTransform p1 = pathTransform p2 := by
  rw [pathTransform_eq p1, pathTransform_eq p2, h1, h2]
  unfold pjoin
  rw [hparts]

theorem pathTransform_idem (p : List Char) (hshape : p = [] ∨ p.head? = some '/') :
    pathTransform (pathTransform p) = pathTransform p := by
  rcases hshape with rfl | hp
  · decide
  · rcases pathTransform_slash p hp with h | ⟨ht, hform⟩
    · rw [h]
      decide
    · obtain ⟨c0, hc0, _⟩ := pjoin_head p ht
      have hqne : pjoin p ≠ [] := by
        intro h0
        rw [h0] at hc0
        cases hc0
      obtain ⟨c1, hc1, hc1ne⟩ := pjoin_getLast p ht
      have hqh : (pjoin p).head? ≠ some '/' := by
        obtain ⟨d0, hd0, hd0ne⟩ := pjoin_head p ht
        rw [hd0]
        intro h
        exact hd0ne (Option.some.inj h)
      have hql : (pjoin p).getLast? ≠ some '/' := by
        rw [hc1]
        intro h
        exact hc1ne (Option.some.inj h)
      have hclean : trimSlashes (pjoin p) = pjoin p := trimSlashes_of_clean _ hqh hql
      have hhead : (pathTransform p).head? = some '/' := pathTransform_head p hp
      have htrim : trimSlashes (pathTransform p) = pjoin p := by
        rcases hform with h | h
        · rw [h, trimSlashes_cons_slash, hclean]
        · rw [h, show ('/' :: pjoin p) ++ ['/'] = ('/' :: pjoin p) ++ ['/'] from rfl,
            trimSlashes_append_slash, trimSlashes_cons_slash, hclean]
      apply pathTransform_congr _ _ hhead hp
      unfold partsOf
      rw [htrim]
      rw [show splitSep '/' (pjoin p) = partsOf p from splitSep_pjoin p]
      unfold partsOf
      rw [List.map_map]
      apply List.map_eq_map_iff.mpr
      intro a _
      exact caseSegList_idem a

theorem mem_pathTransform (p : List Char) (c : Char) (hc : c ∈ pathTransform p) :
    c = '/' ∨ c.isAlpha = true ∨ c ∈ p := by
  have key : ∀ d ∈ pjoin p, d = '/' ∨ d.isAlpha = true ∨ d ∈ p := by
    intro d hd
    rcases mem_joinSep '/' (partsOf p) d hd with h | ⟨seg, hseg, hdseg⟩
    · exact Or.inl h
    · rcases List.mem_map.mp hseg with ⟨seg0, hseg0, rfl⟩
      rcases mem_caseSegList seg0 d hdseg with h | h
      · exact Or.inr (Or.inr (trimSlashes_subset p d (splitSep_subset '/' _ seg0 hseg0 d h)))
      · exact Or.inr (Or.inl h)
  have key2 : ∀ d ∈ '/' :: pjoin p, d = '/' ∨ d.isAlpha = true ∨ d ∈ p := by
    intro d hd
    rcases List.mem_cons.mp hd with h | h
    · exact Or.inl h
    · exact key d h
  rw [pathTransform_eq] at hc
  split_ifs at hc <;>
    first
      | exact key2 c hc
      | exact key c hc
      | exact key2 c ((List.dropLast_sublist _).subset hc)
      | exact key c ((List.dropLast_sublist _).subset hc)
      | (rcases List.mem_append.mp hc with h | h
         · first
             | exact key2 c h
             | exact key c h
         · exact Or.inl (List.mem_singleton.mp h))

/-! Facts about query escaping and `Values`. -/

theorem hexValOf_hexDigitOf (n : Nat) (h : n < 16) : hexValOf (hexDigitOf n) = some n := by
  interval_cases n <;> decide

theorem hexDigitOf_safe (n : Nat) (h : n < 16) :
    hexDigitOf n ≠ '&' ∧ hexDigitOf n ≠ '=' ∧ hexDigitOf n ≠ ';' ∧ hexDigitOf n ≠ '?' ∧
      hexDigitOf n ≠ '#' ∧ hexDigitOf n ≠ '/' := by
  interval_cases n <;> decide

theorem qEscapeChar_mem_safe (d c : Char) (hc : c ∈ qEscapeChar d) :
    c ≠ '&' ∧ c ≠ '=' ∧ c ≠ ';' ∧ c ≠ '?' ∧ c ≠ '#' ∧ c ≠ '/' := by
  revert hc
  unfold qEscapeChar
  split_ifs with h1 h2 h3 <;> intro hc
  · rw [List.mem_singleton.mp hc]
    decide
  · have he := List.mem_singleton.mp hc
    subst he
    refine ⟨?_, ?_, ?_, ?_, ?_, ?_⟩ <;> intro he2 <;> rw [he2] at h2 <;>
      exact absurd h2 (by decide)
  · rcases List.mem_cons.mp hc with h | h
    · rw [h]; decide
    · rcases List.mem_cons.mp h with h | h
      · rw [h]
        have hs := hexDigitOf_safe (d.toNat / 16) (by omega)
        exact ⟨hs.1, hs.2.1, hs.2.2.1, hs.2.2.2.1, hs.2.2.2.2.1, hs.2.2.2.2.2⟩
      · rw [List.mem_singleton.mp h]
        have hs := hexDigitOf_safe (d.toNat % 16) (by omega)
        exact ⟨hs.1, hs.2.1, hs.2.2.1, hs.2.2.2.1, hs.2.2.2.2.1, hs.2.2.2.2.2⟩
  · have he := List.mem_singleton.mp hc
    subst he
    refine ⟨?_, ?_, ?_, ?_, ?_, ?_⟩ <;> intro he2 <;> rw [he2] at h3 <;>
      exact h3 (by decide)

theorem qEscape_mem_safe (s : List Char) (c : Char) (hc : c ∈ qEscape s) :
    c ≠ '&' ∧ c ≠ '=' ∧ c ≠ ';' ∧ c ≠ '?' ∧ c ≠ '#' ∧ c ≠ '/' := by
  rcases List.mem_flatMap.mp hc with ⟨d, _, hcd⟩
  exact qEscapeChar_mem_safe d c hcd

theorem qUnescape_cons (c : Char) (rest : List Char) (hc : ¬(c = '%')) :
    qUnescape (c :: rest) = if c = '+' then (qUnescape rest).map (fun r => ' ' :: r)
      else (qUnescape rest).map (fun r => c :: r) := by
  cases rest with
  | nil => simp [qUnescape, hc]
  | cons a rest1 =>
    cases rest1 with
    | nil => simp [qUnescape, hc]
    | cons b rest2 => simp [qUnescape, hc]

theorem qUnescape_pct (a b : Char) (rest2 : List Char) (x y : Nat)
    (ha : hexValOf a = some x) (hb : hexValOf b = some y) :
    qUnescape ('%' :: a :: b :: rest2) =
      (qUnescape rest2).map (fun r => Char.ofNat (16 * x + y) :: r) := by
  simp [qUnescape, ha, hb]

theorem qUnescape_qEscape : ∀ (s : List Char), qUnescape (qEscape s) = some s := by
  intro s
  induction s with
  | nil => rfl
  | cons c rest ih =>
    rw [show qEscape (c :: rest) = qEscapeChar c ++ qEscape rest from rfl]
    by_cases h1 : c = ' '
    · rw [show qEscapeChar c = ['+'] from by rw [h1]; decide]
      rw [List.singleton_append]
      rw [qUnescape_cons '+' _ (by decide), if_pos rfl, ih, h1]
      rfl
    · by_cases h2 : isUnreserved c
      · rw [show qEscapeChar c = [c] from by unfold qEscapeChar; rw [if_neg h1, if_pos h2]]
        rw [List.singleton_append]
        have hc1 : ¬(c = '%') := by intro h; rw [h] at h2; exact absurd h2 (by decide)
        have hc2 : ¬(c = '+') := by intro h; rw [h] at h2; exact absurd h2 (by decide)
        rw [qUnescape_cons c _ hc1, if_neg hc2, ih]
        rfl
      · by_cases h3 : c.toNat < 256
        · rw [show qEscapeChar c = ['%', hexDigitOf (c.toNat / 16), hexDigitOf (c.toNat % 16)]
            from by unfold qEscapeChar; rw [if_neg h1, if_neg h2, if_pos h3]]
          rw [show ['%', hexDigitOf (c.toNat / 16), hexDigitOf (c.toNat % 16)] ++ qEscape rest
            = '%' :: hexDigitOf (c.toNat / 16) :: hexDigitOf (c.toNat % 16) :: qEscape rest
            from rfl]
          rw [qUnescape_pct _ _ _ (c.toNat / 16) (c.toNat % 16)
            (hexValOf_hexDigitOf (c.toNat / 16) (by omega))
            (hexValOf_hexDigitOf (c.toNat % 16) (by omega))]
          rw [ih]
          rw [show 16 * (c.toNat / 16) + c.toNat % 16 = c.toNat from by omega]
          rw [Char.ofNat_toNat]
          rfl
        · rw [show qEscapeChar c = [c] from by
            unfold qEscapeChar; rw [if_neg h1, if_neg h2, if_neg h3]]
          rw [List.singleton_append]
          have hc1 : ¬(c = '%') := by intro h; rw [h] at h3; exact h3 (by decide)
          have hc2 : ¬(c = '+') := by intro h; rw [h] at h3; exact h3 (by decide)
          rw [qUnescape_cons c _ hc1, if_neg hc2, ih]
          rfl

theorem parsePair_encoded (k v : List Char) :
    parsePair (qEscape k ++ '=' :: qEscape v) = some (k, v) := by
  unfold parsePair
  have hsemi : ¬((qEscape k ++ '=' :: qEscape v).contains ';' = true) := by
    intro h
    rcases List.mem_append.mp (List.elem_iff.mp h) with h2 | h2
    · exact (qEscape_mem_safe k ';' h2).2.2.1 rfl
    · rcases List.mem_cons.mp h2 with h3 | h3
      · exact absurd h3 (by decide)
      · exact (qEscape_mem_safe v ';' h3).2.2.1 rfl
  rw [if_neg hsemi]
  rw [if_neg (by simp : ¬(qEscape k ++ '=' :: qEscape v = []))]
  rw [cutFirst_append (qEscape v) (fun h => (qEscape_mem_safe k '=' h).2.1 rfl)]
  show (match qUnescape (qEscape k), qUnescape (qEscape v) with
    | some k2, some v2 => some (k2, v2)
    | _, _ => none) = some (k, v)
  rw [qUnescape_qEscape k, qUnescape_qEscape v]

/-- Keys of a grouped values list. -/
def vKeys (vs : List (List Char × List (List Char))) : List (List Char) := vs.map Prod.fst

/-- One step of `ParseQuery`, as folded over the split pairs. -/
def pqStep (acc : List (List Char × List (List Char))) (pair : List Char) :
    List (List Char × List (List Char)) :=
  match parsePair pair with
  | some kv => valuesAdd acc kv.1 kv.2
  | none => acc

theorem parseQueryList_eq (q : List Char) :
    parseQueryList q = (splitAmp q).foldl pqStep [] := rfl

theorem valuesAdd_absent : ∀ (vs : List (List Char × List (List Char))) (k : List Char)
    (v : List Char), k ∉ vKeys vs → valuesAdd vs k v = vs ++ [(k, [v])] := by
  intro vs
  induction vs with
  | nil => intro k v _; rfl
  | cons kv rest ih =>
    intro k v hk
    obtain ⟨k2, vs2⟩ := kv
    simp only [vKeys, List.map_cons, List.mem_cons, not_or] at hk
    rw [valuesAdd]
    rw [if_neg (fun h : k2 = k => hk.1 h.symm)]
    rw [ih k v (by simp only [vKeys]; exact hk.2)]
    rfl

theorem valuesAdd_last : ∀ (vs : List (List Char × List (List Char))) (k : List Char)
    (g : List (List Char)) (v : List Char), k ∉ vKeys vs →
    valuesAdd (vs ++ [(k, g)]) k v = vs ++ [(k, g ++ [v])] := by
  intro vs
  induction vs with
  | nil =>
    intro k g v _
    rw [List.nil_append, List.nil_append, valuesAdd, if_pos rfl]
  | cons kv rest ih =>
    intro k g v hk
    obtain ⟨k2, vs2⟩ := kv
    simp only [vKeys, List.map_cons, List.mem_cons, not_or] at hk
    rw [List.cons_append, valuesAdd]
    rw [if_neg (fun h : k2 = k => hk.1 h.symm)]
    rw [ih k g v (by simp only [vKeys]; exact hk.2)]
    rw [List.cons_append]

theorem pqStep_group : ∀ (g : List (List Char)) (acc : List (List Char × List (List Char)))
    (k : List Char) (g0 : List (List Char)), k ∉ vKeys acc →
    (g.map (fun v => qEscape k ++ '=' :: qEscape v)).foldl pqStep (acc ++ [(k, g0)]) =
      acc ++ [(k, g0 ++ g)] := by
  intro g
  induction g with
  | nil => intro acc k g0 _; simp
  | cons v g2 ih =>
    intro acc k g0 hk
    rw [List.map_cons, List.foldl_cons]
    rw [show pqStep (acc ++ [(k, g0)]) (qEscape k ++ '=' :: qEscape v)
        = acc ++ [(k, g0 ++ [v])] from by
      unfold pqStep
      rw [parsePair_encoded]
      exact valuesAdd_last acc k g0 v hk]
    rw [ih acc k (g0 ++ [v]) hk]
    simp

/-- The `k=v` pair strings `Encode` builds from a grouped values list, in
list order. -/
def pairsOf (vs : List (List Char × List (List Char))) : List (List Char) :=
  vs.flatMap (fun kv => kv.2.map (fun v => qEscape kv.1 ++ '=' :: qEscape v))

theorem valuesEncode_eq (vs : List (List Char × List (List Char))) :
    valuesEncode vs = joinSep '&' (pairsOf (vs.insertionSort keyLE)) := rfl

theorem pqStep_rebuild : ∀ (vs : List (List Char × List (List Char)))
    (acc : List (List Char × List (List Char))),
    (vs.map Prod.fst).Nodup → (∀ kv ∈ vs, kv.1 ∉ vKeys acc) → (∀ kv ∈ vs, kv.2 ≠ []) →
    (pairsOf vs).foldl pqStep acc = acc ++ vs := by
  intro vs
  induction vs with
  | nil => intro acc _ _ _; simp [pairsOf]
  | cons kv vs2 ih =>
    intro acc hnodup hdisj hne
    obtain ⟨k, g⟩ := kv
    rw [show pairsOf ((k, g) :: vs2)
      = g.map (fun v => qEscape k ++ '=' :: qEscape v) ++ pairsOf vs2 from rfl]
    rw [List.foldl_append]
    have hkacc : k ∉ vKeys acc := hdisj (k, g) (List.mem_cons_self _ _)
    cases hg : g with
    | nil => exact absurd hg (hne (k, g) (List.mem_cons_self _ _))
    | cons v g2 =>
      rw [List.map_cons, List.foldl_cons]
      rw [show pqStep acc (qEscape k ++ '=' :: qEscape v) = acc ++ [(k, [v])] from by
        unfold pqStep
        rw [parsePair_encoded]
        exact valuesAdd_absent acc k v hkacc]
      rw [pqStep_group g2 acc k [v] hkacc]
      rw [ih (acc ++ [(k, [v] ++ g2)]) (by
          rw [List.map_cons] at hnodup
          exact hnodup.of_cons)
        (by
          intro kv2 hkv2
          rw [show vKeys (acc ++ [(k, [v] ++ g2)]) = vKeys acc ++ [k] from by
            simp [vKeys]]
          intro hmem
          rcases List.mem_append.mp hmem with h | h
          · exact hdisj kv2 (List.mem_cons_of_mem _ hkv2) h
          · have hmm := List.mem_map_of_mem Prod.fst hkv2
            rw [List.mem_singleton.mp h] at hmm
            rw [List.map_cons] at hnodup
            exact (List.nodup_cons.mp hnodup).1 hmm)
        (fun kv2 hkv2 => hne kv2 (List.mem_cons_of_mem _ hkv2))]
      rw [List.append_assoc]
      rfl

theorem valuesAdd_keys_cases : ∀ (vs : List (List Char × List (List Char))) (k : List Char)
    (v : List Char), vKeys (valuesAdd vs k v) = vKeys vs ∨
      vKeys (valuesAdd vs k v) = vKeys vs ++ [k] := by
  intro vs
  induction vs with
  | nil => intro k v; right; rfl
  | cons kv rest ih =>
    intro k v
    obtain ⟨k2, vs2⟩ := kv
    rw [valuesAdd]
    by_cases h : k2 = k
    · rw [if_pos h]
      left
      rfl
    · rw [if_neg h]
      rcases ih k v with h1 | h1
      · left
        rw [show vKeys ((k2, vs2) :: valuesAdd rest k v) = k2 :: vKeys (valuesAdd rest k v)
          from rfl, h1]
        rfl
      · right
        rw [show vKeys ((k2, vs2) :: valuesAdd rest k v) = k2 :: vKeys (valuesAdd rest k v)
          from rfl, h1]
        rfl

theorem valuesAdd_keys_nodup : ∀ (vs : List (List Char × List (List Char))) (k : List Char)
    (v : List Char), (vKeys vs).Nodup → (vKeys (valuesAdd vs k v)).Nodup := by
  intro vs
  induction vs with
  | nil => intro k v _; simp [valuesAdd, vKeys]
  | cons kv rest ih =>
    intro k v hn
    obtain ⟨k2, vs2⟩ := kv
    rw [show vKeys ((k2, vs2) :: rest) = k2 :: vKeys rest from rfl] at hn
    have hn2 := List.nodup_cons.mp hn
    rw [valuesAdd]
    by_cases h : k2 = k
    · rw [if_pos h]
      exact hn
    · rw [if_neg h]
      rw [show vKeys ((k2, vs2) :: valuesAdd rest k v) = k2 :: vKeys (valuesAdd rest k v)
        from rfl]
      apply List.nodup_cons.mpr
      refine ⟨?_, ih k v hn2.2⟩
      rcases valuesAdd_keys_cases rest k v with h1 | h1
      · rw [h1]
        exact hn2.1
      · rw [h1]
        intro hmem
        rcases List.mem_append.mp hmem with h2 | h2
        · exact hn2.1 h2
        · exact h (List.mem_singleton.mp h2)

theorem valuesAdd_groups_ne : ∀ (vs : List (List Char × List (List Char))) (k : List Char)
    (v : List Char), (∀ kv ∈ vs, kv.2 ≠ []) → ∀ kv ∈ valuesAdd vs k v, kv.2 ≠ [] := by
  intro vs
  induction vs with
  | nil =>
    intro k v _ kv hkv
    rw [show valuesAdd [] k v = [(k, [v])] from rfl] at hkv
    rw [List.mem_singleton.mp hkv]
    simp
  | cons kv0 rest ih =>
    intro k v hall kv hkv
    obtain ⟨k2, vs2⟩ := kv0
    rw [valuesAdd] at hkv
    by_cases h : k2 = k
    · rw [if_pos h] at hkv
      rcases List.mem_cons.mp hkv with h1 | h1
      · rw [h1]
        simp
      · exact hall kv (List.mem_cons_of_mem _ h1)
    · rw [if_neg h] at hkv
      rcases List.mem_cons.mp hkv with h1 | h1
      · rw [h1]
        exact hall (k2, vs2) (List.mem_cons_self _ _)
      · exact ih k v (fun kv2 hkv2 => hall kv2 (List.mem_cons_of_mem _ hkv2)) kv h1

theorem pqStep_invariant : ∀ (pairs : List (List Char))
    (acc : List (List Char × List (List Char))),
    (vKeys acc).Nodup → (∀ kv ∈ acc, kv.2 ≠ []) →
    (vKeys (pairs.foldl pqStep acc)).Nodup ∧ ∀ kv ∈ pairs.foldl pqStep acc, kv.2 ≠ [] := by
  intro pairs
  induction pairs with
  | nil => intro acc h1 h2; exact ⟨h1, h2⟩
  | cons pr pairs2 ih =>
    intro acc h1 h2
    rw [List.foldl_cons]
    apply ih
    · unfold pqStep
      cases hp : parsePair pr with
      | none => exact h1
      | some kv => exact valuesAdd_keys_nodup acc kv.1 kv.2 h1
    · unfold pqStep
      cases hp : parsePair pr with
      | none => exact h2
      | some kv => exact valuesAdd_groups_ne acc kv.1 kv.2 h2

theorem parseQueryList_invariant (q : List Char) :
    (vKeys (parseQueryList q)).Nodup ∧ ∀ kv ∈ parseQueryList q, kv.2 ≠ [] := by
  rw [parseQueryList_eq]
  exact pqStep_invariant (splitAmp q) [] (by simp [vKeys]) (by simp)

theorem parseQueryList_valuesEncode (vs : List (List Char × List (List Char)))
    (hnodup : (vs.map Prod.fst).Nodup) (hne : ∀ kv ∈ vs, kv.2 ≠ []) :
    parseQueryList (valuesEncode vs) = vs.insertionSort keyLE := by
  have hperm : (vs.insertionSort keyLE).Perm vs := List.perm_insertionSort keyLE vs
  have hnodup2 : ((vs.insertionSort keyLE).map Prod.fst).Nodup :=
    ((hperm.map Prod.fst).nodup_iff).mpr hnodup
  have hne2 : ∀ kv ∈ vs.insertionSort keyLE, kv.2 ≠ [] :=
    fun kv hkv => hne kv (hperm.mem_iff.mp hkv)
  rw [valuesEncode_eq, parseQueryList_eq]
  by_cases hP : pairsOf (vs.insertionSort keyLE) = []
  · have hs : vs.insertionSort keyLE = [] := by
      cases hsv : vs.insertionSort keyLE with
      | nil => rfl
      | cons kv rest =>
        exfalso
        rw [hsv] at hP
        rw [show pairsOf (kv :: rest)
          = kv.2.map (fun v => qEscape kv.1 ++ '=' :: qEscape v) ++ pairsOf rest from
          rfl] at hP
        rcases List.append_eq_nil.mp hP with ⟨h1, _⟩
        rw [List.map_eq_nil] at h1
        exact hne2 kv (hsv ▸ List.mem_cons_self _ _) h1
    rw [hP, hs]
    rfl
  · have hsplit : splitAmp (joinSep '&' (pairsOf (vs.insertionSort keyLE)))
        = pairsOf (vs.insertionSort keyLE) := by
      rw [show splitAmp = splitSep '&' from rfl]
      apply splitSep_joinSep '&' _ hP
      intro seg hseg
      rcases List.mem_flatMap.mp hseg with ⟨kv, _, hseg2⟩
      rcases List.mem_map.mp hseg2 with ⟨v, _, rfl⟩
      intro hmem
      rcases List.mem_append.mp hmem with h | h
      · exact (qEscape_mem_safe kv.1 '&' h).1 rfl
      · rcases List.mem_cons.mp h with h | h
        · exact absurd h (by decide)
        · exact (qEscape_mem_safe v '&' h).1 rfl
    rw [hsplit]
    rw [pqStep_rebuild _ [] hnodup2 (by simp [vKeys]) hne2]
    rfl

theorem mem_valuesEncode_safe (vs : List (List Char × List (List Char))) (c : Char)
    (hc : c ∈ valuesEncode vs) : c ≠ '?' ∧ c ≠ '#' := by
  rw [valuesEncode_eq] at hc
  rcases mem_joinSep '&' _ c hc with h | ⟨seg, hseg, hcseg⟩
  · subst h
    exact ⟨by decide, by decide⟩
  · rcases List.mem_flatMap.mp hseg with ⟨kv, _, hseg2⟩
    rcases List.mem_map.mp hseg2 with ⟨v, _, rfl⟩
    rcases List.mem_append.mp hcseg with h | h
    · have hs := qEscape_mem_safe kv.1 c h
      exact ⟨hs.2.2.2.1, hs.2.2.2.2.1⟩
    · rcases List.mem_cons.mp h with h | h
      · subst h
        exact ⟨by decide, by decide⟩
      · have hs := qEscape_mem_safe v c h
        exact ⟨hs.2.2.2.1, hs.2.2.2.2.1⟩

theorem queryTransform_safe (raw : List Char) (c : Char) (hc : c ∈ queryTransform raw) :
    c ≠ '?' ∧ c ≠ '#' := mem_valuesEncode_safe _ c hc

theorem queryTransform_nil : queryTransform [] = [] := rfl

theorem queryTransform_idem (raw : List Char) :
    queryTransform (queryTransform raw) = queryTransform raw := by
  have hinv := parseQueryList_invariant raw
  have hsub : (valuesDel (parseQueryList raw) "f".data).Sublist (parseQueryList raw) :=
    List.filter_sublist _
  have hnodup1 : ((valuesDel (parseQueryList raw) "f".data).map Prod.fst).Nodup :=
    List.Nodup.sublist (hsub.map Prod.fst) hinv.1
  have hne1 : ∀ kv ∈ valuesDel (parseQueryList raw) "f".data, kv.2 ≠ [] :=
    fun kv hkv => hinv.2 kv (List.mem_of_mem_filter hkv)
  have hnof : ∀ kv ∈ valuesDel (parseQueryList raw) "f".data, kv.1 ≠ "f".data := by
    intro kv hkv
    have hp := List.of_mem_filter hkv
    simpa using hp
  show queryTransform (valuesEncode (valuesDel (parseQueryList raw) "f".data))
    = valuesEncode (valuesDel (parseQueryList raw) "f".data)
  unfold queryTransform
  rw [parseQueryList_valuesEncode _ hnodup1 hne1]
  have hperm := List.perm_insertionSort keyLE (valuesDel (parseQueryList raw) "f".data)
  have hdel2 : valuesDel
      ((valuesDel (parseQueryList raw) "f".data).insertionSort keyLE) "f".data
      = (valuesDel (parseQueryList raw) "f".data).insertionSort keyLE := by
    unfold valuesDel
    apply List.filter_eq_self.mpr
    intro kv hkv
    have hk := hnof kv (hperm.mem_iff.mp hkv)
    simpa using hk
  rw [hdel2]
  rw [valuesEncode_eq, valuesEncode_eq]
  rw [List.Sorted.insertionSort_eq (List.sorted_insertionSort keyLE _)]

/-! Facts about the parse helpers. -/

theorem cutFirst_eq_some (sep : Char) : ∀ (l a b : List Char),
    cutFirst sep l = some (a, b) → sep ∉ a ∧ l = a ++ sep :: b := by
  intro l
  induction l with
  | nil => intro a b h; cases h
  | cons c rest ih =>
    intro a b h
    rw [cutFirst] at h
    by_cases hc : c = sep
    · rw [if_pos hc] at h
      have heq := Option.some.inj h
      have h1 : ([] : List Char) = a := congrArg Prod.fst heq
      have h2 : rest = b := congrArg Prod.snd heq
      subst h1
      subst h2
      exact ⟨List.not_mem_nil sep, by rw [hc]; rfl⟩
    · rw [if_neg hc] at h
      cases hcf : cutFirst sep rest with
      | none => rw [hcf] at h; cases h
      | some pr =>
        rw [hcf] at h
        have heq := Option.some.inj h
        have h1 : c :: pr.1 = a := congrArg Prod.fst heq
        have h2 : pr.2 = b := congrArg Prod.snd heq
        subst h1
        subst h2
        obtain ⟨hna, hrest⟩ := ih pr.1 pr.2 (by rw [hcf])
        refine ⟨?_, ?_⟩
        · intro hmem
          rcases List.mem_cons.mp hmem with h3 | h3
          · exact hc h3.symm
          · exact hna h3
        · rw [List.cons_append, ← hrest]

theorem cutFirst_eq_none (sep : Char) : ∀ (l : List Char), cutFirst sep l = none →
    sep ∉ l := by
  intro l
  induction l with
  | nil => intro _; exact List.not_mem_nil sep
  | cons c rest ih =>
    intro h
    rw [cutFirst] at h
    by_cases hc : c = sep
    · rw [if_pos hc] at h
      cases h
    · rw [if_neg hc] at h
      cases hcf : cutFirst sep rest with
      | some pr => rw [hcf] at h; cases h
      | none =>
        intro hmem
        rcases List.mem_cons.mp hmem with h3 | h3
        · exact hc h3.symm
        · exact ih hcf h3

theorem getSchemeAux_rest_mem : ∀ (l : List Char) (seen sch r : List Char),
    getSchemeAux seen l = .found sch r → ∀ c ∈ r, c ∈ l := by
  intro l
  induction l with
  | nil => intro seen sch r h; cases h
  | cons c rest ih =>
    intro seen sch r h d hd
    rw [getSchemeAux] at h
    by_cases h1 : c.isAlpha
    · rw [if_pos h1] at h
      exact List.mem_cons_of_mem c (ih _ sch r h d hd)
    · rw [if_neg h1] at h
      by_cases h2 : (c.isDigit || c = '+' || c = '-' || c = '.') = true
      · rw [if_pos h2] at h
        by_cases h3 : seen.isEmpty
        · rw [if_pos h3] at h
          cases h
        · rw [if_neg h3] at h
          exact List.mem_cons_of_mem c (ih _ sch r h d hd)
      · rw [if_neg h2] at h
        by_cases h4 : c = ':'
        · rw [if_pos h4] at h
          by_cases h5 : seen.isEmpty
          · rw [if_pos h5] at h
            cases h
          · rw [if_neg h5] at h
            cases h
            exact List.mem_cons_of_mem c hd
        · rw [if_neg h4] at h
          cases h

theorem spanUntil_fst_not_mem (sep : Char) : ∀ (l : List Char), sep ∉ (spanUntil sep l).1 := by
  intro l
  induction l with
  | nil => exact List.not_mem_nil sep
  | cons c rest ih =>
    simp only [spanUntil]
    by_cases hc : c = sep
    · rw [if_pos hc]
      exact List.not_mem_nil sep
    · rw [if_neg hc]
      intro hmem
      rcases List.mem_cons.mp hmem with h3 | h3
      · exact hc h3.symm
      · exact ih h3

theorem spanUntil_fst_mem (sep : Char) : ∀ (l : List Char), ∀ c ∈ (spanUntil sep l).1,
    c ∈ l := by
  intro l
  induction l with
  | nil => intro c hc; cases hc
  | cons a rest ih =>
    intro c hc
    simp only [spanUntil] at hc
    by_cases ha : a = sep
    · rw [if_pos ha] at hc
      cases hc
    · rw [if_neg ha] at hc
      rcases List.mem_cons.mp hc with h3 | h3
      · rw [h3]
        exact List.mem_cons_self a rest
      · exact List.mem_cons_of_mem a (ih c h3)

theorem spanUntil_snd_mem (sep : Char) : ∀ (l : List Char), ∀ c ∈ (spanUntil sep l).2,
    c ∈ l := by
  intro l
  induction l with
  | nil => intro c hc; cases hc
  | cons a rest ih =>
    intro c hc
    simp only [spanUntil] at hc
    by_cases ha : a = sep
    · rw [if_pos ha] at hc
      exact hc
    · rw [if_neg ha] at hc
      exact List.mem_cons_of_mem a (ih c hc)

theorem spanUntil_snd_shape (sep : Char) : ∀ (l : List Char),
    (spanUntil sep l).2 = [] ∨ (spanUntil sep l).2.head? = some sep := by
  intro l
  induction l with
  | nil => left; rfl
  | cons a rest ih =>
    simp only [spanUntil]
    by_cases ha : a = sep
    · rw [if_pos ha]
      right
      rw [ha]
      rfl
    · rw [if_neg ha]
      exact ih

theorem parseQuerySplit_q (rest0 : List Char) :
    '?' ∉ (parseQuerySplit rest0).1 ∧
    (∀ c ∈ (parseQuerySplit rest0).1, c ∈ rest0) ∧
    (∀ c ∈ (parseQuerySplit rest0).2.2, c ∈ rest0) ∧
    ((parseQuerySplit rest0).2.1 = true → (parseQuerySplit rest0).2.2 = []) := by
  unfold parseQuerySplit
  by_cases hcond : rest0.getLast? = some '?' ∧ rest0.dropLast.all (fun c => c ≠ '?')
  · rw [if_pos hcond]
    refine ⟨?_, ?_, ?_, ?_⟩
    · intro hmem
      have hall := List.all_eq_true.mp hcond.2 '?' hmem
      simp at hall
    · intro c hc
      exact (List.dropLast_sublist rest0).subset hc
    · intro c hc
      cases hc
    · intro _
      rfl
  · rw [if_neg hcond]
    cases hcf : cutFirst '?' rest0 with
    | none =>
      refine ⟨cutFirst_eq_none '?' rest0 hcf, fun c hc => hc,
        fun c hc => absurd hc (List.not_mem_nil c), fun _ => rfl⟩
    | some pr =>
      obtain ⟨hna, hrest⟩ := cutFirst_eq_some '?' rest0 pr.1 pr.2 (by rw [hcf])
      refine ⟨hna, ?_, ?_, fun h => absurd h Bool.false_ne_true⟩
      · intro c hc
        rw [hrest]
        exact List.mem_append.mpr (Or.inl hc)
      · intro c hc
        rw [hrest]
        exact List.mem_append.mpr (Or.inr (List.mem_cons_of_mem _ hc))

/-- The invariants a successful `parse` establishes on which the
normalizer round trip relies. -/
structure URLWF (u : URLRec) : Prop where
  opq_q : '?' ∉ u.opq
  opq_h : '#' ∉ u.opq
  opq_rest : u.opq ≠ [] → u.opq.head? ≠ some '/' ∧ u.host = [] ∧ u.path = [] ∧
    u.omitHost = false
  host_s : '/' ∉ u.host
  host_q : '?' ∉ u.host
  host_h : '#' ∉ u.host
  path_q : '?' ∉ u.path
  path_h : '#' ∉ u.path
  path_shape : u.scheme ≠ [] → u.path = [] ∨ u.path.head? = some '/'
  omit_shape : u.omitHost = true → u.host = [] ∧ u.opq = [] ∧ u.path.head? = some '/' ∧
    (u.path.drop 1).head? ≠ some '/'
  force_q : u.forceQuery = true → u.rawQuery = []
  query_h : '#' ∉ u.rawQuery

theorem parseRest_wf (scheme rest0 : List Char) (u : URLRec) (hq : '#' ∉ rest0)
    (h : parseRest scheme rest0 = some u) :
    URLWF u ∧ u.scheme = scheme ∧ u.fragment = [] := by
  obtain ⟨hq1, hsub1, hsub2, hforce⟩ := parseQuerySplit_q rest0
  unfold parseRest at h
  have hqrest : '#' ∉ (parseQuerySplit rest0).1 := fun hm => hq (hsub1 '#' hm)
  have hqrq : '#' ∉ (parseQuerySplit rest0).2.2 := fun hm => hq (hsub2 '#' hm)
  by_cases h1 : (parseQuerySplit rest0).1.head? ≠ some '/'
  · rw [if_pos h1] at h
    by_cases h2 : scheme ≠ []
    · rw [if_pos h2] at h
      have heq := Option.some.inj h
      subst heq
      exact ⟨⟨hq1, hqrest, fun _ => ⟨h1, rfl, rfl, rfl⟩, List.not_mem_nil '/',
        List.not_mem_nil '?', List.not_mem_nil '#', List.not_mem_nil '?',
        List.not_mem_nil '#', fun _ => Or.inl rfl, fun hh => absurd hh Bool.false_ne_true,
        hforce, hqrq⟩, rfl, rfl⟩
    · rw [if_neg h2] at h
      have hsch : scheme = [] := not_ne_iff.mp h2
      by_cases h3 : ((spanUntil '/' (parseQuerySplit rest0).1).1.contains ':') = true
      · rw [if_pos h3] at h
        cases h
      · rw [if_neg h3] at h
        have heq := Option.some.inj h
        subst heq
        exact ⟨⟨List.not_mem_nil '?', List.not_mem_nil '#', fun hh => absurd rfl hh,
          List.not_mem_nil '/', List.not_mem_nil '?', List.not_mem_nil '#', hq1, hqrest,
          fun hh => absurd hsch hh, fun hh => absurd hh Bool.false_ne_true, hforce, hqrq⟩,
          rfl, rfl⟩
  · rw [if_neg h1] at h
    have h1s : (parseQuerySplit rest0).1.head? = some '/' := not_ne_iff.mp h1
    by_cases h2 : ((parseQuerySplit rest0).1.drop 1).head? = some '/'
    · rw [if_pos h2] at h
      by_cases h3 : scheme ≠ [] ∨ ¬(((parseQuerySplit rest0).1.drop 2).head? = some '/')
      · rw [if_pos h3] at h
        have heq := Option.some.inj h
        subst heq
        refine ⟨⟨List.not_mem_nil '?', List.not_mem_nil '#', fun hh => absurd rfl hh,
          spanUntil_fst_not_mem '/' _, ?_, ?_, ?_, ?_, ?_,
          fun hh => absurd hh Bool.false_ne_true, hforce, hqrq⟩, rfl, rfl⟩
        · intro hm
          exact hq1 ((List.drop_sublist 2 _).subset
            (spanUntil_fst_mem '/' _ '?' hm))
        · intro hm
          exact hqrest ((List.drop_sublist 2 _).subset
            (spanUntil_fst_mem '/' _ '#' hm))
        · intro hm
          exact hq1 ((List.drop_sublist 2 _).subset
            (spanUntil_snd_mem '/' _ '?' hm))
        · intro hm
          exact hqrest ((List.drop_sublist 2 _).subset
            (spanUntil_snd_mem '/' _ '#' hm))
        · intro _
          exact spanUntil_snd_shape '/' _
      · rw [if_neg h3] at h
        have heq := Option.some.inj h
        subst heq
        have hsch : scheme = [] := by
          rcases not_or.mp h3 with ⟨h4, _⟩
          exact not_ne_iff.mp h4
        exact ⟨⟨List.not_mem_nil '?', List.not_mem_nil '#', fun hh => absurd rfl hh,
          List.not_mem_nil '/', List.not_mem_nil '?', List.not_mem_nil '#', hq1, hqrest,
          fun hh => absurd hsch hh, fun hh => absurd hh Bool.false_ne_true, hforce, hqrq⟩,
          rfl, rfl⟩
    · rw [if_neg h2] at h
      have heq := Option.some.inj h
      subst heq
      exact ⟨⟨List.not_mem_nil '?', List.not_mem_nil '#', fun hh => absurd rfl hh,
        List.not_mem_nil '/', List.not_mem_nil '?', List.not_mem_nil '#', hq1, hqrest,
        fun _ => Or.inr h1s, fun _ => ⟨rfl, rfl, h1s, h2⟩, hforce, hqrq⟩, rfl, rfl⟩

theorem parseCore_wf (w : List Char) (u : URLRec) (hw : '#' ∉ w)
    (h : parseCore w = some u) : URLWF u ∧ u.fragment = [] := by
  unfold parseCore at h
  by_cases hstar : w = ['*']
  · rw [if_pos hstar] at h
    have heq := Option.some.inj h
    subst heq
    exact ⟨⟨by decide, by decide, fun hh => absurd rfl hh, by decide, by decide, by decide,
      by decide, by decide, fun hh => absurd rfl hh, fun hh => absurd hh Bool.false_ne_true,
      fun _ => rfl, by decide⟩, rfl⟩
  · rw [if_neg hstar] at h
    cases hsr : getSchemeAux [] w with
    | err =>
      rw [hsr] at h
      cases h
    | noScheme =>
      rw [hsr] at h
      exact ⟨(parseRest_wf [] w u hw h).1, (parseRest_wf [] w u hw h).2.2⟩
    | found sch r =>
      rw [hsr] at h
      have hrw : '#' ∉ r := fun hm => hw (getSchemeAux_rest_mem w [] sch r hsr '#' hm)
      exact ⟨(parseRest_wf sch r u hrw h).1, (parseRest_wf sch r u hrw h).2.2⟩

theorem urlParse_wf (s : List Char) (u : URLRec) (h : urlParse s = some u) : URLWF u := by
  unfold urlParse at h
  cases hcf : cutFirst '#' s with
  | none =>
    rw [hcf] at h
    exact (parseCore_wf s u (cutFirst_eq_none '#' s hcf) h).1
  | some pr =>
    obtain ⟨before, frag⟩ := pr
    rw [hcf] at h
    have h2 : (parseCore before).map
        (fun v => { v with fragment := frag }) = some u := h
    cases hpc : parseCore before with
    | none =>
      rw [hpc] at h2
      cases h2
    | some u0 =>
      rw [hpc] at h2
      have heq := Option.some.inj h2
      subst heq
      have hbf : '#' ∉ before := (cutFirst_eq_some '#' s before frag (by rw [hcf])).1
      have hwf := (parseCore_wf before u0 hbf hpc).1
      exact ⟨hwf.opq_q, hwf.opq_h, hwf.opq_rest, hwf.host_s, hwf.host_q, hwf.host_h,
        hwf.path_q, hwf.path_h, hwf.path_shape, hwf.omit_shape, hwf.force_q, hwf.query_h⟩

/-! Round-trip lemmas: re-parsing a `String()`-rendered URL. -/

theorem parseQuerySplit_app (B rq : List Char) (hB : '?' ∉ B) (hrq : '?' ∉ rq)
    (hne : rq ≠ []) : parseQuerySplit (B ++ '?' :: rq) = (B, false, rq) := by
  unfold parseQuerySplit
  have hlast : (B ++ '?' :: rq).getLast? = rq.getLast? := by
    rw [List.getLast?_append_of_ne_nil B (by simp)]
    exact getLast?_cons_ne '?' rq hne
  have hcond : ¬((B ++ '?' :: rq).getLast? = some '?' ∧
      (B ++ '?' :: rq).dropLast.all (fun c => c ≠ '?')) := by
    intro hc
    rw [hlast] at hc
    exact hrq (List.mem_of_mem_getLast? hc.1)
  rw [if_neg hcond]
  rw [cutFirst_append rq hB]

theorem parseQuerySplit_concat (B : List Char) (hB : '?' ∉ B) :
    parseQuerySplit (B ++ ['?']) = (B, true, []) := by
  unfold parseQuerySplit
  have h1 : (B ++ ['?']).getLast? = some '?' := List.getLast?_concat B
  have h2 : (B ++ ['?']).dropLast = B := List.dropLast_concat
  rw [if_pos ⟨h1, by
    rw [h2]
    exact List.all_eq_true.mpr (fun c hc => decide_eq_true (fun he => hB (he ▸ hc)))⟩]
  rw [h2]

theorem parseQuerySplit_noq (B : List Char) (hB : '?' ∉ B) :
    parseQuerySplit B = (B, false, []) := by
  unfold parseQuerySplit
  have hcond : ¬(B.getLast? = some '?' ∧ B.dropLast.all (fun c => c ≠ '?')) :=
    fun hc => hB (List.mem_of_mem_getLast? hc.1)
  rw [if_neg hcond, cutFirst_of_age hB]

theorem parseQuerySplit_build (B : List Char) (fq : Bool) (rq : List Char)
    (hB : '?' ∉ B) (hrq : '?' ∉ rq) (hfq : fq = true → rq = []) :
    parseQuerySplit (B ++ (if fq = true ∨ rq ≠ [] then '?' :: rq else [])) = (B, fq, rq) := by
  by_cases h1 : rq = []
  · subst h1
    cases fq with
    | true =>
      rw [if_pos (Or.inl rfl)]
      exact parseQuerySplit_concat B hB
    | false =>
      rw [if_neg (by simp)]
      rw [List.append_nil]
      exact parseQuerySplit_noq B hB
  · have hfq2 : fq = false := by
      cases fq with
      | false => rfl
      | true => exact absurd (hfq rfl) h1
    subst hfq2
    rw [if_pos (Or.inr h1)]
    exact parseQuerySplit_app B rq hB hrq h1

theorem parseCore_scheme (sch rest : List Char)
    (hsch : sch = "http".data ∨ sch = "https".data) :
    parseCore (sch ++ ':' :: rest) = parseRest sch rest := by
  unfold parseCore
  have hne : sch ++ ':' :: rest ≠ ['*'] := by
    intro hh
    rcases hsch with h | h <;> subst h <;>
      exact absurd (Option.some.inj (congrArg List.head? hh)) (by decide)
  rw [if_neg hne]
  have hga : getSchemeAux [] (sch ++ ':' :: rest) = .found sch rest := by
    rcases hsch with h | h <;> subst h
    · rw [getSchemeAux_alpha rest "http".data [] (by decide) (Or.inr (by decide))]
      have hmap : List.map Char.toLower "http".data = "http".data := by decide
      rw [List.nil_append, hmap]
    · rw [getSchemeAux_alpha rest "https".data [] (by decide) (Or.inr (by decide))]
      have hmap : List.map Char.toLower "https".data = "https".data := by decide
      rw [List.nil_append, hmap]
  rw [hga]

theorem parseRest_opaque (sch rest0 B : List Char) (fq : Bool) (rq : List Char)
    (hsplit : parseQuerySplit rest0 = (B, fq, rq)) (hsch : sch ≠ [])
    (hBh : B.head? ≠ some '/') :
    parseRest sch rest0 = some
      { scheme := sch, opq := B, host := [], path := [],
        omitHost := false, forceQuery := fq, rawQuery := rq, fragment := [] } := by
  unfold parseRest
  rw [hsplit]
  rw [show ((B, fq, rq)).1 = B from rfl, show ((B, fq, rq)).2.1 = fq from rfl,
      show ((B, fq, rq)).2.2 = rq from rfl]
  rw [if_pos hBh, if_pos hsch]

theorem parseRest_authority (sch rest0 host path : List Char) (fq : Bool) (rq : List Char)
    (hsplit : parseQuerySplit rest0 = ('/' :: '/' :: (host ++ path), fq, rq))
    (hsch : sch ≠ []) (hhost : '/' ∉ host) (hpath : path = [] ∨ path.head? = some '/') :
    parseRest sch rest0 = some
      { scheme := sch, opq := [], host := host, path := path,
        omitHost := false, forceQuery := fq, rawQuery := rq, fragment := [] } := by
  unfold parseRest
  rw [hsplit]
  rw [show (('/' :: '/' :: (host ++ path), fq, rq)).1 = '/' :: '/' :: (host ++ path) from rfl,
      show (('/' :: '/' :: (host ++ path), fq, rq)).2.1 = fq from rfl,
      show (('/' :: '/' :: (host ++ path), fq, rq)).2.2 = rq from rfl]
  rw [if_neg (show ¬(('/' :: '/' :: (host ++ path)).head? ≠ some '/') from
    not_ne_iff.mpr rfl)]
  rw [if_pos (show (('/' :: '/' :: (host ++ path)).drop 1).head? = some '/' from rfl)]
  rw [if_pos (Or.inl hsch)]
  rcases hpath with rfl | hph
  · rw [show (('/' :: '/' :: (host ++ ([] : List Char))).drop 2) = host ++ [] from rfl]
    rw [List.append_nil]
    rw [spanUntil_no_sep hhost]
  · cases path with
    | nil => cases hph
    | cons c p2 =>
      have hc : c = '/' := Option.some.inj hph
      subst hc
      rw [show (('/' :: '/' :: (host ++ '/' :: p2)).drop 2) = host ++ '/' :: p2 from rfl]
      rw [spanUntil_append p2 hhost]

theorem parseRest_omit (sch rest0 path : List Char) (fq : Bool) (rq : List Char)
    (hsplit : parseQuerySplit rest0 = (path, fq, rq))
    (hph : path.head? = some '/') (hd2 : ¬((path.drop 1).head? = some '/')) :
    parseRest sch rest0 = some
      { scheme := sch, opq := [], host := [], path := path,
        omitHost := decide (sch ≠ []), forceQuery := fq, rawQuery := rq,
        fragment := [] } := by
  unfold parseRest
  rw [hsplit]
  rw [show ((path, fq, rq)).1 = path from rfl, show ((path, fq, rq)).2.1 = fq from rfl,
      show ((path, fq, rq)).2.2 = rq from rfl]
  rw [if_neg (not_ne_iff.mpr hph)]
  rw [if_neg hd2]

theorem urlParse_assemble (sch B : List Char) (fq : Bool) (rq frag : List Char) (u0 : URLRec)
    (hsch : sch = "http".data ∨ sch = "https".data)
    (hB_h : '#' ∉ B) (hq_h : '#' ∉ rq) (hu0f : u0.fragment = [])
    (hres : parseRest sch (B ++ (if fq = true ∨ rq ≠ [] then '?' :: rq else [])) = some u0) :
    urlParse (sch ++ ':' :: (B ++ ((if fq = true ∨ rq ≠ [] then '?' :: rq else []) ++
      (if frag ≠ [] then '#' :: frag else [])))) = some { u0 with fragment := frag } := by
  have hpre_h : '#' ∉ sch ++ ':' ::
      (B ++ (if fq = true ∨ rq ≠ [] then '?' :: rq else [])) := by
    intro hm
    rcases List.mem_append.mp hm with h | h
    · rcases hsch with hs | hs <;> rw [hs] at h <;> exact absurd h (by decide)
    · rcases List.mem_cons.mp h with h | h
      · exact absurd h (by decide)
      · rcases List.mem_append.mp h with h | h
        · exact hB_h h
        · by_cases hq : fq = true ∨ rq ≠ []
          · rw [if_pos hq] at h
            rcases List.mem_cons.mp h with h | h
            · exact absurd h (by decide)
            · exact hq_h h
          · rw [if_neg hq] at h
            cases h
  by_cases hfrag : frag = []
  · subst hfrag
    rw [if_neg (show ¬(([] : List Char) ≠ []) from by simp)]
    rw [List.append_nil]
    have ha2 : urlParse (sch ++ ':' ::
        (B ++ (if fq = true ∨ rq ≠ [] then '?' :: rq else []))) = parseCore (sch ++ ':' ::
        (B ++ (if fq = true ∨ rq ≠ [] then '?' :: rq else []))) := by
      unfold urlParse
      rw [cutFirst_of_age hpre_h]
    rw [ha2, parseCore_scheme sch _ hsch, hres]
    rw [show ({ u0 with fragment := ([] : List Char) } : URLRec) = u0 from by rw [← hu0f]]
  · rw [if_pos hfrag]
    have hassoc : sch ++ ':' :: (B ++ ((if fq = true ∨ rq ≠ [] then '?' :: rq else []) ++
        '#' :: frag)) = (sch ++ ':' ::
        (B ++ (if fq = true ∨ rq ≠ [] then '?' :: rq else []))) ++ '#' :: frag := by
      simp
    rw [hassoc]
    have h3 : urlParse ((sch ++ ':' ::
        (B ++ (if fq = true ∨ rq ≠ [] then '?' :: rq else []))) ++ '#' :: frag)
        = (parseCore (sch ++ ':' ::
          (B ++ (if fq = true ∨ rq ≠ [] then '?' :: rq else [])))).map
          (fun v => { v with fragment := frag }) := by
      unfold urlParse
      rw [cutFirst_append frag hpre_h]
    rw [h3, parseCore_scheme sch _ hsch, hres]
    rfl

theorem toStr_roundtrip (u : URLRec)
    (hsch : u.scheme = "http".data ∨ u.scheme = "https".data)
    (hopq_q : '?' ∉ u.opq) (hopq_h : '#' ∉ u.opq)
    (hopq_rest : u.opq ≠ [] → u.opq.head? ≠ some '/' ∧ u.host = [] ∧ u.path = [] ∧
      u.omitHost = false)
    (hhost_s : '/' ∉ u.host) (hhost_q : '?' ∉ u.host) (hhost_h : '#' ∉ u.host)
    (hpath_q : '?' ∉ u.path) (hpath_h : '#' ∉ u.path)
    (hpath_shape : u.path = [] ∨ u.path.head? = some '/')
    (homit : u.omitHost = true → u.host = [] ∧ u.opq = [] ∧ u.path.head? = some '/' ∧
      (u.path.drop 1).head? ≠ some '/')
    (hforce : u.forceQuery = true → u.rawQuery = [])
    (hq_q : '?' ∉ u.rawQuery) (hq_h : '#' ∉ u.rawQuery) :
    urlParse u.toStr = some u := by
  have hschne : u.scheme ≠ [] := by
    rcases hsch with h | h <;> rw [h] <;> decide
  have hC2 : ¬(u.path ≠ [] ∧ u.path.head? ≠ some '/' ∧ u.host ≠ []) := by
    rcases hpath_shape with h | h
    · intro hc; exact hc.1 h
    · intro hc; exact hc.2.1 h
  have hC3 : ¬(u.scheme = [] ∧
      ¬((u.scheme ≠ [] ∨ u.host ≠ []) ∧ ¬(u.omitHost ∧ u.host = []) ∧
        (u.host ≠ [] ∨ u.path ≠ [])) ∧
      ((spanUntil '/' u.path).1.contains ':')) :=
    fun hc => hschne hc.1
  by_cases hopqE : u.opq = []
  · by_cases hC1 : (u.scheme ≠ [] ∨ u.host ≠ []) ∧ ¬(u.omitHost ∧ u.host = []) ∧
        (u.host ≠ [] ∨ u.path ≠ [])
    · have homitF : u.omitHost = false := by
        cases hom : u.omitHost
        · rfl
        · exact absurd ⟨hom, (homit hom).1⟩ hC1.2.1
      have htostr : u.toStr = u.scheme ++ ':' :: (('/' :: '/' :: (u.host ++ u.path)) ++
          ((if u.forceQuery = true ∨ u.rawQuery ≠ [] then '?' :: u.rawQuery else []) ++
           (if u.fragment ≠ [] then '#' :: u.fragment else []))) := by
        unfold URLRec.toStr
        rw [if_pos hschne, if_neg (fun hh : u.opq ≠ [] => hh hopqE), if_pos hC1,
            if_neg hC2, if_neg hC3]
        simp
      rw [htostr]
      have hBq : '?' ∉ '/' :: '/' :: (u.host ++ u.path) := by
        intro hm
        rcases List.mem_cons.mp hm with h | h
        · exact absurd h (by decide)
        rcases List.mem_cons.mp h with h | h
        · exact absurd h (by decide)
        rcases List.mem_append.mp h with h | h
        · exact hhost_q h
        · exact hpath_q h
      have hBh : '#' ∉ '/' :: '/' :: (u.host ++ u.path) := by
        intro hm
        rcases List.mem_cons.mp hm with h | h
        · exact absurd h (by decide)
        rcases List.mem_cons.mp h with h | h
        · exact absurd h (by decide)
        rcases List.mem_append.mp h with h | h
        · exact hhost_h h
        · exact hpath_h h
      have hsplit := parseQuerySplit_build ('/' :: '/' :: (u.host ++ u.path)) u.forceQuery
        u.rawQuery hBq hq_q hforce
      have hres := parseRest_authority u.scheme _ u.host u.path u.forceQuery u.rawQuery
        hsplit hschne hhost_s hpath_shape
      have hasm := urlParse_assemble u.scheme ('/' :: '/' :: (u.host ++ u.path)) u.forceQuery
        u.rawQuery u.fragment _ hsch hBh hq_h rfl hres
      rw [hasm]
      rcases u with ⟨s1, o1, h1, p1, om1, fq1, rq1, fr1⟩
      rw [show o1 = [] from hopqE, show om1 = false from homitF]
    · have hC1n := hC1
      rw [not_and_or, not_and_or] at hC1n
      rcases hC1n with h | h | h
      · exact absurd (Or.inl hschne) h
      · have hOH : (u.omitHost = true) ∧ u.host = [] := not_not.mp h
        obtain ⟨hhostE, _, hpH, hpD⟩ := homit hOH.1
        have htostr : u.toStr = u.scheme ++ ':' :: (u.path ++
            ((if u.forceQuery = true ∨ u.rawQuery ≠ [] then '?' :: u.rawQuery else []) ++
             (if u.fragment ≠ [] then '#' :: u.fragment else []))) := by
          unfold URLRec.toStr
          rw [if_pos hschne, if_neg (fun hh : u.opq ≠ [] => hh hopqE), if_neg hC1,
              if_neg hC2, if_neg hC3]
          simp
        rw [htostr]
        have hsplit := parseQuerySplit_build u.path u.forceQuery u.rawQuery hpath_q hq_q
          hforce
        have hres := parseRest_omit u.scheme _ u.path u.forceQuery u.rawQuery hsplit hpH hpD
        have hasm := urlParse_assemble u.scheme u.path u.forceQuery u.rawQuery u.fragment _
          hsch hpath_h hq_h rfl hres
        rw [hasm]
        have hdec : decide (u.scheme ≠ []) = true := decide_eq_true hschne
        rcases u with ⟨s1, o1, h1, p1, om1, fq1, rq1, fr1⟩
        rw [show o1 = [] from hopqE, show h1 = [] from hhostE, show om1 = true from hOH.1,
            show decide (s1 ≠ []) = true from hdec]
      · have hhp : u.host = [] ∧ u.path = [] :=
          ⟨not_ne_iff.mp (not_or.mp h).1, not_ne_iff.mp (not_or.mp h).2⟩
        have homitF : u.omitHost = false := by
          cases hom : u.omitHost
          · rfl
          · have hph := (homit hom).2.2.1
            rw [hhp.2] at hph
            cases hph
        have htostr : u.toStr = u.scheme ++ ':' :: (([] : List Char) ++
            ((if u.forceQuery = true ∨ u.rawQuery ≠ [] then '?' :: u.rawQuery else []) ++
             (if u.fragment ≠ [] then '#' :: u.fragment else []))) := by
          unfold URLRec.toStr
          rw [if_pos hschne, if_neg (fun hh : u.opq ≠ [] => hh hopqE), if_neg hC1,
              if_neg hC2, if_neg hC3]
          simp [hhp.2]
        rw [htostr]
        have hsplit := parseQuerySplit_build [] u.forceQuery u.rawQuery
          (List.not_mem_nil '?') hq_q hforce
        have hres := parseRest_opaque u.scheme _ [] u.forceQuery u.rawQuery hsplit hschne
          (by simp)
        have hasm := urlParse_assemble u.scheme [] u.forceQuery u.rawQuery u.fragment _
          hsch (List.not_mem_nil '#') hq_h rfl hres
        rw [hasm]
        rcases u with ⟨s1, o1, h1, p1, om1, fq1, rq1, fr1⟩
        rw [show o1 = [] from hopqE, show h1 = [] from hhp.1, show p1 = [] from hhp.2,
            show om1 = false from homitF]
  · obtain ⟨hoh, hhostE, hpathE, homitF⟩ := hopq_rest hopqE
    have htostr : u.toStr = u.scheme ++ ':' :: (u.opq ++
        ((if u.forceQuery = true ∨ u.rawQuery ≠ [] then '?' :: u.rawQuery else []) ++
         (if u.fragment ≠ [] then '#' :: u.fragment else []))) := by
      unfold URLRec.toStr
      rw [if_pos hschne, if_pos hopqE]
      simp
    rw [htostr]
    have hsplit := parseQuerySplit_build u.opq u.forceQuery u.rawQuery hopq_q hq_q hforce
    have hres := parseRest_opaque u.scheme _ u.opq u.forceQuery u.rawQuery hsplit hschne hoh
    have hasm := urlParse_assemble u.scheme u.opq u.forceQuery u.rawQuery u.fragment _ hsch
      hopq_h hq_h rfl hres
    rw [hasm]
    rcases u with ⟨s1, o1, h1, p1, om1, fq1, rq1, fr1⟩
    rw [show h1 = [] from hhostE, show p1 = [] from hpathE, show om1 = false from homitF]

theorem serviceNorm_idem (u : URLRec) (hshape : u.path = [] ∨ u.path.head? = some '/') :
    serviceNorm (serviceNorm u) = serviceNorm u := by
  simp [serviceNorm, pathTransform_idem u.path hshape, queryTransform_idem]

/-- C4: for every valid service URL (a URL `isValidHTTPURL` accepts whose
lowercase form contains one of the ArcGIS REST markers, the condition the
normalizer's service branch keys on), `normalizeArcGISURL` is idempotent. -/
theorem c4_normalize_idempotent (s : String) (hvalid : isValidHTTPURL s = true)
    (hservice : isArcGISServiceURL s = true) :
    normalizeArcGISURL (normalizeArcGISURL s) = normalizeArcGISURL s := by
  unfold isValidHTTPURL at hvalid
  cases hparse : urlParse s.data with
  | none =>
    rw [hparse] at hvalid
    cases hvalid
  | some u0 =>
    rw [hparse] at hvalid
    have hsch : u0.scheme = "http".data ∨ u0.scheme = "https".data := by
      simpa using hvalid
    have hwf := urlParse_wf s.data u0 hparse
    have hschne : u0.scheme ≠ [] := by
      rcases hsch with h | h <;> rw [h] <;> decide
    have hsvc : (strContainsList "/rest/services".data (toLowerList s.data) ||
        strContainsList "/arcgis/rest".data (toLowerList s.data)) = true := hservice
    have hens : ensureScheme u0 = u0 := by
      unfold ensureScheme
      rw [if_neg hschne]
    have hpass1 : normalizeCore s.data = (serviceNorm u0).toStr := by
      unfold normalizeCore
      rw [if_neg (fun hc => by rw [hsvc] at hc; exact absurd hc.1 (by decide))]
      rw [hparse]
      show (if (strContainsList "/rest/services".data (toLowerList s.data) ||
          strContainsList "/arcgis/rest".data (toLowerList s.data)) = true then
          (serviceNorm (ensureScheme u0)).toStr
        else (ensureScheme u0).toStr) = (serviceNorm u0).toStr
      rw [hens, if_pos hsvc]
    have hshape0 : u0.path = [] ∨ u0.path.head? = some '/' := hwf.path_shape hschne
    have hpath_q : '?' ∉ pathTransform u0.path := by
      intro hm
      rcases mem_pathTransform u0.path '?' hm with h | h | h
      · exact absurd h (by decide)
      · exact absurd h (by decide)
      · exact hwf.path_q h
    have hpath_h : '#' ∉ pathTransform u0.path := by
      intro hm
      rcases mem_pathTransform u0.path '#' hm with h | h | h
      · exact absurd h (by decide)
      · exact absurd h (by decide)
      · exact hwf.path_h h
    have hrt : urlParse (serviceNorm u0).toStr = some (serviceNorm u0) := by
      apply toStr_roundtrip (serviceNorm u0) hsch hwf.opq_q hwf.opq_h
      · intro hne
        obtain ⟨h1, h2, h3, h4⟩ := hwf.opq_rest hne
        refine ⟨h1, h2, ?_, h4⟩
        show pathTransform u0.path = []
        rw [h3, pathTransform_nil]
      · exact hwf.host_s
      · exact hwf.host_q
      · exact hwf.host_h
      · exact hpath_q
      · exact hpath_h
      · show pathTransform u0.path = [] ∨ (pathTransform u0.path).head? = some '/'
        rcases hshape0 with h | h
        · left
          rw [h, pathTransform_nil]
        · right
          exact pathTransform_head u0.path h
      · intro hom
        obtain ⟨h1, h2, h3, h4⟩ := hwf.omit_shape hom
        exact ⟨h1, h2, pathTransform_head u0.path h3, pathTransform_no_dslash u0.path h3⟩
      · intro hfq
        show queryTransform u0.rawQuery = []
        rw [hwf.force_q hfq, queryTransform_nil]
      · intro hm
        exact (queryTransform_safe u0.rawQuery '?' hm).1 rfl
      · intro hm
        exact (queryTransform_safe u0.rawQuery '#' hm).2 rfl
    have hens2 : ensureScheme (serviceNorm u0) = serviceNorm u0 := by
      unfold ensureScheme
      rw [if_neg (show ¬((serviceNorm u0).scheme = []) from hschne)]
    unfold normalizeArcGISURL
    apply congrArg String.mk
    rw [show (String.mk (normalizeCore s.data)).data = normalizeCore s.data from rfl]
    rw [hpass1]
    show normalizeCore (serviceNorm u0).toStr = (serviceNorm u0).toStr
    by_cases hsvc2 : (strContainsList "/rest/services".data
        (toLowerList (serviceNorm u0).toStr) ||
        strContainsList "/arcgis/rest".data (toLowerList (serviceNorm u0).toStr)) = true
    · unfold normalizeCore
      rw [if_neg (fun hc => by rw [hsvc2] at hc; exact absurd hc.1 (by decide))]
      rw [hrt]
      show (if (strContainsList "/rest/services".data
            (toLowerList (serviceNorm u0).toStr) ||
          strContainsList "/arcgis/rest".data (toLowerList (serviceNorm u0).toStr))
          = true then
          (serviceNorm (ensureScheme (serviceNorm u0))).toStr
        else (ensureScheme (serviceNorm u0)).toStr) = (serviceNorm u0).toStr
      rw [hens2, if_pos hsvc2]
      rw [serviceNorm_idem u0 hshape0]
    · by_cases hitem2 : strContainsList "arcgis.com/home/item.html".data
          (toLowerList (serviceNorm u0).toStr) = true
      · unfold normalizeCore
        rw [if_neg (fun hc => by rw [hitem2] at hc; exact absurd hc.2 (by decide))]
        rw [hrt]
        show (if (strContainsList "/rest/services".data
              (toLowerList (serviceNorm u0).toStr) ||
            strContainsList "/arcgis/rest".data (toLowerList (serviceNorm u0).toStr))
            = true then
            (serviceNorm (ensureScheme (serviceNorm u0))).toStr
          else (ensureScheme (serviceNorm u0)).toStr) = (serviceNorm u0).toStr
        rw [hens2, if_neg hsvc2]
      · unfold normalizeCore
        rw [if_pos ⟨Bool.eq_false_iff.mpr hsvc2, Bool.eq_false_iff.mpr hitem2⟩]
        rw [hrt]
        show (if (serviceNorm u0).scheme = [] ∧
            ((serviceNorm u0).toStr).contains '.' ∧
            ¬((serviceNorm u0).toStr).contains ' ' ∧
            ((serviceNorm u0).toStr).head? ≠ some '/' then
            "https://".data ++ (serviceNorm u0).toStr
          else (serviceNorm u0).toStr) = (serviceNorm u0).toStr
        rw [if_neg (fun hc => hschne hc.1)]

/-- Witness for C4: a concrete service URL from the repository tests. -/
theorem c4_witness :
    isValidHTTPURL "https://test.com/arcgis/rest/services/lower/featureserver/1" = true ∧
    isArcGISServiceURL "https://test.com/arcgis/rest/services/lower/featureserver/1" = true ∧
    normalizeArcGISURL (normalizeArcGISURL
        "https://test.com/arcgis/rest/services/lower/featureserver/1") =
      normalizeArcGISURL "https://test.com/arcgis/rest/services/lower/featureserver/1" :=
  ⟨by decide, by decide, c4_normalize_idempotent _ (by decide) (by decide)⟩

end ArcgisUtils
